import Mathlib

/-!
# A verification development for `registry.py`

This file gives a shallow embedding of the module-registry code in
`registry.py` (the `Module` descriptor class and the `RegistryClient`
filesystem client) and proves properties of the embedded operations.

Modelling conventions:

* The registry root directory is modelled as a tree (`Entry`) of named
  entries; directories hold association lists in creation order, exactly as
  a directory listing is only ever consulted through named lookups in the
  source.
* Text files written through `json.dump` / `yaml.dump` are modelled by
  their parsed values (`JVal`); since every such file is only ever read
  back via `json.load` and accessed by key, this is observationally
  faithful.  `json.dump(sort_keys=True)` affects only the key order of the
  written text, which is modelled where it is observable (the `Module`
  serialization round trip of `dump`/`from_json`).
* `module_list` is read with `readlines()` and written with `writelines()`;
  the file is modelled by its list of lines (each line in the source is
  written as `name + "\n"`).
* Python exceptions are modelled with `Except`; an error carries the
  filesystem state at the moment the exception is raised, so that partial
  mutations made before a failure stay observable.
* `pathlib.Path.joinpath` drops empty components
  (`Path("a").joinpath("") == Path("a")`); `pj` models this.  Path
  components are otherwise treated as opaque names (a name containing `/`
  or equal to `.`/`..` is not given Python path semantics; universally
  quantified theorems that depend on name shapes carry explicit
  hypotheses on the characters of the names involved).
* Files outside the registry (patch files and the `MODULE.bazel` /
  `presubmit.yml` override files handed to `shutil.copy`) are modelled by
  an external read-only map `ExtFS` from path strings to file contents.
-/

/-- A JSON/YAML value, as produced by `json.dump`/`json.load`/`yaml.dump`.
Objects are association lists in insertion order. -/
inductive JVal where
  | null : JVal
  | str (s : String) : JVal
  | int (n : Int) : JVal
  | arr (xs : List JVal) : JVal
  | obj (fields : List (String × JVal)) : JVal

/-- Contents of one file in the modelled filesystem. -/
inductive FileContent where
  /-- A plain text file (the generated `MODULE.bazel`). -/
  | text (s : String) : FileContent
  /-- A JSON or YAML file, modelled by its parsed value. -/
  | jval (j : JVal) : FileContent
  /-- A line-oriented file (`module_list`), one entry per line,
  each stored line including its trailing newline. -/
  | lines (ls : List String) : FileContent

/-- A filesystem entry: a file or a directory of named entries
(in creation order). -/
inductive Entry where
  | file (c : FileContent) : Entry
  | dir (es : List (String × Entry)) : Entry

/-- The filesystem outside the registry root: maps a path string to the
content of the file at that path, if any. -/
def ExtFS : Type := String → Option FileContent

/-- First-match association-list lookup (Python `dict` access /
directory-name lookup). -/
def lookupA {α : Type} : List (String × α) → String → Option α
  | [], _ => none
  | (k, v) :: es, k' => if k = k' then some v else lookupA es k'

/-- Replace the value of the first binding of `k` (Python `d[k] = v` for an
existing key). -/
def setA {α : Type} : List (String × α) → String → α → List (String × α)
  | [], _, _ => []
  | (k, v) :: es, k', v' => if k = k' then (k, v') :: es else (k, v) :: setA es k' v'

/-- Remove the first binding of `k`. -/
def eraseA {α : Type} : List (String × α) → String → List (String × α)
  | [], _ => []
  | (k, v) :: es, k' => if k = k' then es else (k, v) :: eraseA es k'

/-- `Path.joinpath`: appending an empty component leaves the path
unchanged. -/
def pj (p : List String) (s : String) : List String :=
  if s = "" then p else p ++ [s]

/-- Look up the entry at a path (root is `[]`). -/
def lookupE : List String → Entry → Option Entry
  | [], e => some e
  | _ :: _, .file _ => none
  | k :: ks, .dir es =>
    match lookupA es k with
    | some e => lookupE ks e
    | none => none

/-- Apply `f` to the listing of the directory at path `p`; fails if the
path does not lead to a directory or if `f` fails. -/
def updateAt : List String → (List (String × Entry) → Option (List (String × Entry))) →
    Entry → Option Entry
  | [], f, .dir es => (f es).map .dir
  | [], _, .file _ => none
  | _ :: _, _, .file _ => none
  | k :: ks, f, .dir es =>
    match lookupA es k with
    | some e => (updateAt ks f e).map fun e' => .dir (setA es k e')
    | none => none

/-- Split a nonempty path into its directory part and final component. -/
def splitLast : List String → Option (List String × String)
  | [] => none
  | [k] => some ([], k)
  | k :: k' :: ks => (splitLast (k' :: ks)).map fun (pp, l) => (k :: pp, l)

/-- `Path.mkdir()`: the parent must be an existing directory and the target
must not exist (otherwise `FileNotFoundError` / `FileExistsError`). -/
def mkdirE (p : List String) (fs : Entry) : Option Entry :=
  match splitLast p with
  | none => none
  | some (pp, k) =>
    updateAt pp (fun es =>
      if (lookupA es k).isSome then none else some (es ++ [(k, Entry.dir [])])) fs

/-- `open(p, "w")` followed by a full write: creates or truncates the file;
fails if the parent is missing or the target is a directory. -/
def writeFileE (p : List String) (c : FileContent) (fs : Entry) : Option Entry :=
  match splitLast p with
  | none => none
  | some (pp, k) =>
    updateAt pp (fun es =>
      match lookupA es k with
      | some (.dir _) => none
      | some (.file _) => some (setA es k (.file c))
      | none => some (es ++ [(k, Entry.file c)])) fs

/-- Read the content of the file at `p`. -/
def readFileE (p : List String) (fs : Entry) : Option FileContent :=
  match lookupE p fs with
  | some (.file c) => some c
  | _ => none

/-- `Path.is_dir()`. -/
def isDirE (p : List String) (fs : Entry) : Bool :=
  match lookupE p fs with
  | some (.dir _) => true
  | _ => false

/-- `shutil.rmtree`: the target must be an existing directory. -/
def rmtreeE (p : List String) (fs : Entry) : Option Entry :=
  match splitLast p with
  | none => none
  | some (pp, k) =>
    updateAt pp (fun es =>
      match lookupA es k with
      | some (.dir _) => some (eraseA es k)
      | _ => none) fs

/-- Python truthiness of an optional string (`None` and `""` are falsy). -/
def pyTruthy : Option String → Bool
  | none => false
  | some s => s ≠ ""

/-- Lexicographic strict comparison of character lists, by code points
(the order Python uses to compare `str` values). -/
def chLt : List Char → List Char → Bool
  | [], [] => false
  | [], _ :: _ => true
  | _ :: _, [] => false
  | a :: as, b :: bs => if a < b then true else if b < a then false else chLt as bs

/-- Python `a <= b` on strings. -/
def pyStrLe (a b : String) : Bool := !(chLt b.data a.data)

/-- Insert into a run sorted by `le` (helper for `sortBy`). -/
def ordInsert {α : Type} (le : α → α → Bool) (a : α) : List α → List α
  | [] => [a]
  | b :: l => if le a b then a :: b :: l else b :: ordInsert le a l

/-- Stable insertion sort by a boolean comparator (the behaviour of Python
`list.sort()`, which is a stable ascending sort). -/
def sortBy {α : Type} (le : α → α → Bool) : List α → List α
  | [] => []
  | a :: l => ordInsert le a (sortBy le l)

/-- Python `list.sort()` on a list of strings. -/
def pySort (l : List String) : List String := sortBy pyStrLe l

/-- Python `sep.join(items)`. -/
def pyJoin (sep : String) : List String → String
  | [] => ""
  | [x] => x
  | x :: y :: xs => x ++ sep ++ pyJoin sep (y :: xs)

/-- Split a character list at `'/'` (helper for `pathName`). -/
def splitSlash : List Char → List (List Char)
  | [] => [[]]
  | c :: cs =>
    if c = '/' then [] :: splitSlash cs
    else
      match splitSlash cs with
      | [] => [[c]]
      | seg :: rest => (c :: seg) :: rest

/-- `Path(s).name`: the final nonempty path component of a path string. -/
def pathName (s : String) : String :=
  match ((splitSlash s.data).filter (· ≠ [])).getLast? with
  | some seg => ⟨seg⟩
  | none => ""

theorem pySort_demo : pySort ["b", "a", "c"] = ["a", "b", "c"] := by decide

theorem pj_empty_demo : pj ["a"] "" = ["a"] := by decide

theorem pathName_demo : pathName "dir/sub/p.patch" = "p.patch" ∧
    pathName "p.patch" = "p.patch" := by decide

namespace Registry

/-! ## The `Module` descriptor (class `Module` in `registry.py`) -/

/-- The dynamic value of the `compatibility_level` attribute: the
constructor default is the integer `1`, while the interactive caller in
`add_module.py` passes a string. -/
inductive PyScalar where
  | int (n : Int) : PyScalar
  | str (s : String) : PyScalar
deriving DecidableEq

/-- Python `str()` of a `PyScalar`, as used by `str.format`. -/
def PyScalar.render : PyScalar → String
  | .int n => toString n
  | .str s => s

/-- The source location attributes set by `Module.set_source`.  They do
not exist on a freshly constructed descriptor (`Module.__init__` does not
assign them), hence they are grouped under an `Option` in `Module`. -/
structure SourceInfo where
  url : String
  integrity : String
  strip_prefix : Option String
deriving DecidableEq

/-- The `Module` descriptor: one attribute per assignment in
`Module.__init__`, plus the attributes added by `set_source`. -/
structure Module where
  name : Option String := none
  version : Option String := none
  compatibility_level : PyScalar := .int 1
  module_dot_bazel : Option String := none
  deps : List (String × String) := []
  patches : List String := []
  presubmit_yml : Option String := none
  build_targets : List String := []
  test_targets : List String := []
  source? : Option SourceInfo := none
deriving DecidableEq

namespace Module

/-- Python methods return a value; a method without a `return` statement
returns `None`.  A mutator is embedded as a function producing the updated
object together with the value the method returns (`some` of the updated
object for `return self`, `none` for a missing `return`). -/
abbrev MutatorResult : Type := Module × Option Module

/-- `Module.add_dep`: appends to `deps` and returns `self`. -/
def add_dep (m : Module) (module_name version : String) : MutatorResult :=
  let m' := { m with deps := m.deps ++ [(module_name, version)] }
  (m', some m')

/-- `Module.set_module_dot_bazel`: assigns the attribute; the method body
has no `return` statement, so it returns `None`. -/
def set_module_dot_bazel (m : Module) (module_dot_bazel : Option String) : MutatorResult :=
  let m' := { m with module_dot_bazel := module_dot_bazel }
  (m', none)

/-- `Module.set_source`: assigns `url`, `integrity`, `strip_prefix` and
returns `self`. -/
def set_source (m : Module) (url integrity : String)
    ( strip_prefix : Option String) : MutatorResult :=
  let m' := { m with source? := some ⟨url, integrity, strip_prefix⟩ }
  (m', some m')

/-- `Module.add_patch`: appends to `patches` and returns `self`. -/
def add_patch (m : Module) (patch_file : String) : MutatorResult :=
  let m' := { m with patches := m.patches ++ [patch_file] }
  (m', some m')

/-- `Module.set_presubmit_yml`: assigns the attribute and returns `self`. -/
def set_presubmit_yml (m : Module) (presubmit_yml : Option String) : MutatorResult :=
  let m' := { m with presubmit_yml := presubmit_yml }
  (m', some m')

/-- `Module.add_build_target`: appends to `build_targets` and returns
`self`. -/
def add_build_target (m : Module) (target : String) : MutatorResult :=
  let m' := { m with build_targets := m.build_targets ++ [target] }
  (m', some m')

/-- `Module.add_test_targets`: appends to `test_targets` and returns
`self`. -/
def add_test_targets (m : Module) (target : String) : MutatorResult :=
  let m' := { m with test_targets := m.test_targets ++ [target] }
  (m', some m')

end Module

/-! ## `Module.dump` / `Module.from_json`

`dump` serializes `self.__dict__` with `json.dump(..., sort_keys=True)`;
`from_json` wholesale-replaces `self.__dict__` with the parsed JSON.  The
descriptor's field values are Python values (strings, ints, `None`, lists
and the `(name, version)` dependency tuples); JSON has no tuples, so
serialization writes both tuples and lists as arrays, and parsing reads
arrays back as lists. -/

/-- A Python value appearing in a descriptor's `__dict__` (or produced by
reloading one from JSON). -/
inductive PyVal where
  | none : PyVal
  | str (s : String) : PyVal
  | int (n : Int) : PyVal
  /-- A Python `list`. -/
  | list (xs : List PyVal) : PyVal
  /-- A Python `tuple` (distinct from, and never equal to, a list). -/
  | tuple (xs : List PyVal) : PyVal
  /-- A Python `dict` with string keys, as an association list in
  insertion order. -/
  | dict (fields : List (String × PyVal)) : PyVal

/-- An optional string as a Python value. -/
def PyVal.ostr : Option String → PyVal
  | Option.none => .none
  | some s => .str s

/-- The value of a `PyScalar` as a Python value. -/
def PyScalar.toPyVal : PyScalar → PyVal
  | .int n => .int n
  | .str s => .str s

/-- `self.__dict__` of a descriptor: one binding per attribute, in
assignment order (`__init__` order, then the `set_source` attributes). -/
def Module.pyDict (m : Module) : List (String × PyVal) :=
  [("name", PyVal.ostr m.name),
   ("version", PyVal.ostr m.version),
   ("compatibility_level", m.compatibility_level.toPyVal),
   ("module_dot_bazel", PyVal.ostr m.module_dot_bazel),
   ("deps", PyVal.list (m.deps.map fun d => PyVal.tuple [PyVal.str d.1, PyVal.str d.2])),
   ("patches", PyVal.list (m.patches.map PyVal.str)),
   ("presubmit_yml", PyVal.ostr m.presubmit_yml),
   ("build_targets", PyVal.list (m.build_targets.map PyVal.str)),
   ("test_targets", PyVal.list (m.test_targets.map PyVal.str))] ++
  (match m.source? with
   | Option.none => []
   | some s => [("url", PyVal.str s.url), ("integrity", PyVal.str s.integrity),
                ("strip_prefix", PyVal.ostr (SourceInfo.strip_prefix s))])

mutual

/-- JSON serialization of a Python value (`json.dump` with
`sort_keys=True`): tuples and lists both become arrays; dict keys are
written in sorted order at every level. -/
def PyVal.toJson : PyVal → JVal
  | .none => .null
  | .str s => .str s
  | .int n => .int n
  | .list xs => .arr (PyVal.toJsonList xs)
  | .tuple xs => .arr (PyVal.toJsonList xs)
  | .dict fields => .obj (sortBy (fun a b => pyStrLe a.1 b.1) (PyVal.toJsonFields fields))

def PyVal.toJsonList : List PyVal → List JVal
  | [] => []
  | x :: xs => x.toJson :: PyVal.toJsonList xs

def PyVal.toJsonFields : List (String × PyVal) → List (String × JVal)
  | [] => []
  | (k, v) :: fs => (k, v.toJson) :: PyVal.toJsonFields fs

end

mutual

/-- JSON parsing back to a Python value (`json.load`): arrays become
lists, objects become dicts (in the written key order). -/
def JVal.toPyVal : JVal → PyVal
  | .null => .none
  | .str s => .str s
  | .int n => .int n
  | .arr xs => .list (JVal.toPyValList xs)
  | .obj fields => .dict (JVal.toPyValFields fields)

def JVal.toPyValList : List JVal → List PyVal
  | [] => []
  | x :: xs => JVal.toPyVal x :: JVal.toPyValList xs

def JVal.toPyValFields : List (String × JVal) → List (String × PyVal)
  | [] => []
  | (k, v) :: fs => (k, JVal.toPyVal v) :: JVal.toPyValFields fs

end

/-- `Module.dump`: the JSON value written to the file, namely
`json.dump(self.__dict__, f, indent=4, sort_keys=True)`. -/
def Module.dumpJson (m : Module) : JVal :=
  PyVal.toJson (.dict m.pyDict)

/-- The `__dict__` produced by `Module.from_json` on a file written by
`Module.dump` (`self.__dict__ = json.load(f)`). -/
def Module.reloadDict (m : Module) : PyVal :=
  JVal.toPyVal m.dumpJson

/-- Association-list lookup of an attribute in a `__dict__`. -/
def lookupPy (d : List (String × PyVal)) (k : String) : Option PyVal :=
  lookupA d k

mutual

/-- Replace every Python tuple by the list with the same elements (the
change of representation a JSON round trip forces). -/
def PyVal.detuple : PyVal → PyVal
  | .none => .none
  | .str s => .str s
  | .int n => .int n
  | .list xs => .list (PyVal.detupleList xs)
  | .tuple xs => .list (PyVal.detupleList xs)
  | .dict fields => .dict (PyVal.detupleFields fields)

def PyVal.detupleList : List PyVal → List PyVal
  | [] => []
  | x :: xs => x.detuple :: PyVal.detupleList xs

def PyVal.detupleFields : List (String × PyVal) → List (String × PyVal)
  | [] => []
  | (k, v) :: fs => (k, v.detuple) :: PyVal.detupleFields fs

end


/-! ## The `RegistryClient` (class `RegistryClient` in `registry.py`)

The client's `root` directory is the root of the modelled filesystem
(`Entry`), so client operations are functions from the registry state to a
new registry state.  Errors are modelled with `Except`; the error value
records which kind of Python exception was raised together with the
filesystem state at the moment it was raised. -/

/-- The exceptions the client operations can raise.  `duplicate` is the
domain-specific `RegistryModifyException` raised by `add`; the others
stand for the built-in Python exceptions that propagate out of filesystem
or dictionary operations. -/
inductive RegErr where
  /-- `RegistryModifyException` ("Version ... already exists"). -/
  | duplicate : RegErr
  /-- `OSError` family: `FileExistsError`, `FileNotFoundError`,
  `NotADirectoryError`, `IsADirectoryError`, ... -/
  | ioError : RegErr
  /-- `TypeError` (e.g. `joinpath(None)`, sorting mixed types). -/
  | typeError : RegErr
  /-- `AttributeError` (reading `module.url` before `set_source`). -/
  | attrError : RegErr
  /-- `KeyError` (missing `"versions"` key in a metadata object). -/
  | keyError : RegErr
  /-- `ValueError` (`list.remove` of an absent element). -/
  | valueError : RegErr

/-- The result of a client operation: the new registry state, or an
exception paired with the state at the time it was raised. -/
def RegResult : Type := Except (RegErr × Entry) Entry

namespace RegistryClient

/-- `RegistryClient.contains(module_name, version=None)`: true if the
module directory exists and, when `version` is truthy, the version
subdirectory exists. -/
def contains (fs : Entry) (module_name : String) (version : Option String) : Bool :=
  let p := pj (pj [] "modules") module_name
  let p := if pyTruthy version then pj p (version.getD "") else p
  isDirE p fs

/-- `RegistryClient.init_module(module_name, maintainers, homepage)`:
creates `modules/<name>/`, writes its `metadata.json`, then reads
`module_list`, appends `module_name + "\n"`, sorts and rewrites it. -/
def init_module (fs : Entry) (module_name : String) (maintainers : JVal)
    (homepage : String) : RegResult :=
  let p := pj (pj [] "modules") module_name
  match mkdirE p fs with
  | Option.none => .error (.ioError, fs)
  | some st1 =>
    let metadata : JVal := .obj
      [("maintainers", maintainers),
       ("homepage", .str homepage),
       ("versions", .arr []),
       ("yanked_versions", .obj [])]
    match writeFileE (pj p "metadata.json") (.jval metadata) st1 with
    | Option.none => .error (.ioError, st1)
    | some st2 =>
      match readFileE (pj [] "module_list") st2 with
      | some (.lines modules) =>
        match writeFileE (pj [] "module_list")
            (.lines (pySort (modules ++ [module_name ++ "\n"]))) st2 with
        | some st3 => .ok st3
        | Option.none => .error (.ioError, st2)
      | _ => .error (.ioError, st2)

/-- The dependency line generated for one `(name, version)` pair of
`module.deps`. -/
def depLine (d : String × String) : String :=
  "bazel_dep(name = \"" ++ d.1 ++ "\", version = \"" ++ d.2 ++ "\")"

/-- The `_MODULE_BAZEL` template instantiated by
`_MODULE_BAZEL.format(name, version, compatibility_level, deps)`, where
`deps` is `"\n".join(...)` of the dependency lines. -/
def moduleBazelText (nm vr : String) (cl : PyScalar) (deps : List (String × String)) :
    String :=
  "module(\n    name = \"" ++ nm ++ "\",\n    version = \"" ++ vr ++
    "\",\n    compatibility_level = \"" ++ cl.render ++ "\",\n)\n\n" ++
    pyJoin "\n" (deps.map depLine)

/-- `shutil.copy(src, dst)` with `src` a path in the external filesystem
and `dst` a full path in the registry. -/
def copyFile (ext : ExtFS) (src : String) (dst : List String) (fs : Entry) : RegResult :=
  match ext src with
  | Option.none => .error (.ioError, fs)
  | some c =>
    match writeFileE dst c fs with
    | some fs' => .ok fs'
    | Option.none => .error (.ioError, fs)

/-- The `for s in module.patches` loop of `add`: for each patch path, its
basename is appended to the `patches` list of the source dictionary, then
the file is copied into the `patches/` directory.  Returns the new state
and the accumulated basenames. -/
def copyPatches (ext : ExtFS) (patchDir : List String) :
    List String → Entry → Except (RegErr × Entry) (Entry × List JVal)
  | [], fs => .ok (fs, [])
  | s :: rest, fs =>
    match copyFile ext s (pj patchDir (pathName s)) fs with
    | .error e => .error e
    | .ok fs' =>
      match copyPatches ext patchDir rest fs' with
      | .error e => .error e
      | .ok (fs'', names) => .ok (fs'', .str (pathName s) :: names)

/-- Step 2 of `add`: create `MODULE.bazel`, either copying the override
file or writing the generated text. -/
def writeModuleBazel (ext : ExtFS) (m : Module) (p : List String) (nm vr : String)
    (fs : Entry) : RegResult :=
  let module_dot_bazel := pj p "MODULE.bazel"
  if pyTruthy m.module_dot_bazel then
    copyFile ext (m.module_dot_bazel.getD "") module_dot_bazel fs
  else
    match writeFileE module_dot_bazel
        (.text (moduleBazelText nm vr m.compatibility_level m.deps)) fs with
    | some fs' => .ok fs'
    | Option.none => .error (.ioError, fs)

/-- The `if module.patches:` block of `add`: when patches are present,
create the `patches/` directory, copy each patch file into it, and append
the recorded basenames to the source dictionary. -/
def preparePatches (ext : ExtFS) (m : Module) (p : List String)
    (source : List (String × JVal)) (fs : Entry) :
    Except (RegErr × Entry) (Entry × List (String × JVal)) :=
  if m.patches.isEmpty then .ok (fs, source)
  else
    let patch_dir := pj p "patches"
    match mkdirE patch_dir fs with
    | Option.none => .error (.ioError, fs)
    | some st1 =>
      match copyPatches ext patch_dir m.patches st1 with
      | .error e => .error e
      | .ok (st2, names) => .ok (st2, source ++ [("patches", .arr names)])

/-- The source dictionary built by `add` from `module.url`,
`module.integrity` and optionally `module.strip_prefix`. -/
def sourceDict (src : SourceInfo) : List (String × JVal) :=
  let source : List (String × JVal) :=
    [("url", .str src.url), ("integrity", .str src.integrity)]
  if pyTruthy (SourceInfo.strip_prefix src)
    then source ++ [("strip_prefix", .str ((SourceInfo.strip_prefix src).getD ""))] else source

/-- Step 3 of `add`: build the source dictionary from `module.url`,
`module.integrity` and optionally `module.strip_prefix`, copy the patch
files, and write `source.json`. -/
def writeSourceJson (ext : ExtFS) (m : Module) (p : List String) (fs : Entry) :
    RegResult :=
  match m.source? with
  | Option.none => .error (.attrError, fs)
  | some src =>
    match preparePatches ext m p (sourceDict src) fs with
    | .error e => .error e
    | .ok (st, source) =>
      match writeFileE (pj p "source.json") (.jval (.obj source)) st with
      | some st' => .ok st'
      | Option.none => .error (.ioError, st)

/-- The per-platform entry of the generated presubmit structure: the
`for key in platforms` loop stores (a copy of) `build_targets` and
`test_targets` under each platform, each only when non-empty. -/
def presubmitPlatform (m : Module) : List (String × JVal) :=
  (if m.build_targets.isEmpty then []
   else [("build_targets", JVal.arr (m.build_targets.map .str))]) ++
  (if m.test_targets.isEmpty then []
   else [("test_targets", JVal.arr (m.test_targets.map .str))])

/-- Step 4 of `add`: create `presubmit.yml`, either copying the override
file or generating the three-platform default, where each platform gets a
`build_targets` and/or `test_targets` entry only when the corresponding
list is non-empty. -/
def writePresubmit (ext : ExtFS) (m : Module) (p : List String) (fs : Entry) :
    RegResult :=
  let presubmit_yml := pj p "presubmit.yml"
  if pyTruthy m.presubmit_yml then
    copyFile ext (m.presubmit_yml.getD "") presubmit_yml fs
  else
    let platforms : JVal := .obj
      [("linux", .obj (presubmitPlatform m)), ("macos", .obj (presubmitPlatform m)),
       ("windows", .obj (presubmitPlatform m))]
    match writeFileE presubmit_yml (.jval (.obj [("platforms", platforms)])) fs with
    | some fs' => .ok fs'
    | Option.none => .error (.ioError, fs)

/-- All-strings check on a JSON array (Python `list.sort` raises
`TypeError` when the versions list mixes strings with other values). -/
def asStrings : List JVal → Option (List String)
  | [] => some []
  | .str s :: xs => (asStrings xs).map (s :: ·)
  | _ :: _ => Option.none

/-- Step 5 of `add`: load the module's `metadata.json`, append the new
version to `metadata["versions"]`, sort the list, and rewrite the file. -/
def metadataAddVersion (mp : List String) (vr : String) (fs : Entry) : RegResult :=
  match readFileE mp fs with
  | some (.jval (.obj metadata)) =>
    match lookupA metadata "versions" with
    | some (.arr versions) =>
      match asStrings (versions ++ [.str vr]) with
      | some vs =>
        match writeFileE mp
            (.jval (.obj (setA metadata "versions" (.arr ((pySort vs).map .str))))) fs with
        | some fs' => .ok fs'
        | Option.none => .error (.ioError, fs)
      | Option.none => .error (.typeError, fs)
    | some _ => .error (.attrError, fs)
    | Option.none => .error (.keyError, fs)
  | _ => .error (.ioError, fs)

/-- `RegistryClient.add(module)`: guard against an existing version, then
create the version directory and its four artifacts, and finally register
the version in `metadata.json`.  Mirrors the statement order of the
source; every partial state reached before an exception is preserved in
the error value. -/
def add (fs : Entry) (ext : ExtFS) (m : Module) : RegResult :=
  match m.name with
  | Option.none => .error (.typeError, fs)
  | some nm =>
    if contains fs nm m.version then .error (.duplicate, fs)
    else
      match m.version with
      | Option.none => .error (.typeError, fs)
      | some vr =>
        let p := pj (pj (pj [] "modules") nm) vr
        match mkdirE p fs with
        | Option.none => .error (.ioError, fs)
        | some st1 =>
          match writeModuleBazel ext m p nm vr st1 with
          | .error e => .error e
          | .ok st2 =>
            match writeSourceJson ext m p st2 with
            | .error e => .error e
            | .ok st3 =>
              match writePresubmit ext m p st3 with
              | .error e => .error e
              | .ok st4 =>
                metadataAddVersion (pj (pj (pj [] "modules") nm) "metadata.json") vr st4

/-- Python `list.remove`: drop the first element equal to the given
string, or fail with `ValueError`. -/
def removeFirstStr : List JVal → String → Option (List JVal)
  | [], _ => Option.none
  | .str s :: xs, v =>
    if s = v then some xs else (removeFirstStr xs v).map (.str s :: ·)
  | x :: xs, v => (removeFirstStr xs v).map (x :: ·)

/-- `RegistryClient.delete(module_name, version)`: remove the version
directory recursively, then load `metadata.json`, remove the version from
`metadata["versions"]` and rewrite the file. -/
def delete (fs : Entry) (module_name version : String) : RegResult :=
  let p := pj (pj [] "modules") module_name
  match rmtreeE (pj p version) fs with
  | Option.none => .error (.ioError, fs)
  | some st1 =>
    let metadata_path := pj p "metadata.json"
    match readFileE metadata_path st1 with
    | some (.jval (.obj metadata)) =>
      match lookupA metadata "versions" with
      | some (.arr versions) =>
        match removeFirstStr versions version with
        | some versions' =>
          match writeFileE metadata_path
              (.jval (.obj (setA metadata "versions" (.arr versions')))) st1 with
          | some st2 => .ok st2
          | Option.none => .error (.ioError, st1)
        | Option.none => .error (.valueError, st1)
      | some _ => .error (.attrError, st1)
      | Option.none => .error (.keyError, st1)
    | _ => .error (.ioError, st1)

end RegistryClient

/-- A registry root holding an empty `module_list` file and an empty
`modules` directory — the state of a freshly created registry before any
module is initialized. -/
def emptyRegistry : Entry :=
  .dir [("module_list", .file (.lines [])), ("modules", .dir [])]

/-- One client mutation, for reasoning about call sequences. -/
inductive RegOp where
  | initOp (module_name : String) (maintainers : JVal) (homepage : String) : RegOp
  | addOp (m : Module) : RegOp
  | delOp (module_name version : String) : RegOp

/-- Apply one client mutation. -/
def applyOp (ext : ExtFS) (fs : Entry) : RegOp → RegResult
  | .initOp nm mt hp => RegistryClient.init_module fs nm mt hp
  | .addOp m => RegistryClient.add fs ext m
  | .delOp nm vr => RegistryClient.delete fs nm vr

/-- Run a sequence of client mutations, stopping at the first exception.
`runOps ... = .ok fs'` states that every call in the sequence succeeded. -/
def runOps (ext : ExtFS) : Entry → List RegOp → RegResult
  | fs, [] => .ok fs
  | fs, op :: ops =>
    match applyOp ext fs op with
    | .ok fs' => runOps ext fs' ops
    | .error e => .error e


/-! ## Order lemmas: `chLt` agrees with the library order on strings -/

theorem chLt_iff_lt : ∀ as bs : List Char, chLt as bs = true ↔ as < bs
  | [], [] => iff_of_false (by decide) (by intro h; cases h)
  | [], _ :: _ => iff_of_true rfl List.Lex.nil
  | _ :: _, [] => iff_of_false (by simp [chLt]) (by intro h; cases h)
  | a :: as, b :: bs => by
    simp only [chLt]
    rcases lt_trichotomy a b with hab | hab | hab
    · rw [if_pos hab]
      exact iff_of_true rfl (List.Lex.rel hab)
    · subst hab
      rw [if_neg (lt_irrefl a), if_neg (lt_irrefl a)]
      rw [chLt_iff_lt as bs]
      constructor
      · exact fun h => List.Lex.cons h
      · intro h
        cases h with
        | rel h => exact absurd h (lt_irrefl a)
        | cons h => exact h
    · rw [if_neg (asymm hab), if_pos hab]
      constructor
      · simp
      · intro h
        cases h with
        | rel h => exact absurd h (asymm hab)
        | cons h => exact absurd hab (lt_irrefl _)

theorem pyStrLe_iff {a b : String} : pyStrLe a b = true ↔ a ≤ b := by
  unfold pyStrLe
  rw [Bool.not_eq_true', ← Bool.not_eq_true, chLt_iff_lt]
  have h : (b.data < a.data) = (b < a) := by
    rw [String.lt_iff_toList_lt]; rfl
  rw [h]
  exact not_lt

theorem pyStrLe_false_iff {a b : String} : pyStrLe a b = false ↔ b < a := by
  rw [← Bool.not_eq_true, pyStrLe_iff, not_le]

/-! ## Sorting lemmas for `sortBy` / `pySort` -/

theorem ordInsert_perm {α : Type} (le : α → α → Bool) (a : α) :
    ∀ l : List α, List.Perm (ordInsert le a l) (a :: l)
  | [] => List.Perm.refl _
  | b :: l => by
    unfold ordInsert
    by_cases h : le a b = true
    · rw [if_pos h]
    · rw [if_neg h]
      exact ((ordInsert_perm le a l).cons b).trans (List.Perm.swap a b l)

theorem sortBy_perm {α : Type} (le : α → α → Bool) :
    ∀ l : List α, List.Perm (sortBy le l) l
  | [] => List.Perm.refl _
  | a :: l => by
    unfold sortBy
    exact (ordInsert_perm le a (sortBy le l)).trans ((sortBy_perm le l).cons a)

theorem pySort_perm (l : List String) : List.Perm (pySort l) l := sortBy_perm pyStrLe l

theorem ordInsert_sorted {a : String} :
    ∀ {l : List String}, l.Sorted (· ≤ ·) → (ordInsert pyStrLe a l).Sorted (· ≤ ·)
  | [], _ => by simp [ordInsert]
  | b :: l, h => by
    rw [List.sorted_cons] at h
    unfold ordInsert
    by_cases hab : pyStrLe a b = true
    · rw [if_pos hab]
      rw [pyStrLe_iff] at hab
      refine List.sorted_cons.2 ⟨?_, List.sorted_cons.2 h⟩
      intro x hx
      rcases List.mem_cons.1 hx with rfl | hx
      · exact hab
      · exact le_trans hab (h.1 x hx)
    · rw [if_neg hab]
      rw [Bool.not_eq_true, pyStrLe_false_iff] at hab
      refine List.sorted_cons.2 ⟨?_, ordInsert_sorted h.2⟩
      intro x hx
      have hx2 := (ordInsert_perm pyStrLe a l).mem_iff.1 hx
      rcases List.mem_cons.1 hx2 with rfl | hx'
      · exact le_of_lt hab
      · exact h.1 x hx'

theorem pySort_sorted : ∀ l : List String, (pySort l).Sorted (· ≤ ·)
  | [] => by simp [pySort, sortBy]
  | a :: l => by
    have h := pySort_sorted l
    unfold pySort sortBy
    exact ordInsert_sorted h

/-- Sorting is invariant under permutation of the input (sorted
permutations of the same multiset of strings are unique). -/
theorem pySort_eq_of_perm {l l' : List String} (h : List.Perm l l') :
    pySort l = pySort l' :=
  List.eq_of_perm_of_sorted (((pySort_perm l).trans h).trans (pySort_perm l').symm)
    (pySort_sorted l) (pySort_sorted l')

/-- Re-sorting after appending to an already sorted list is the same as
sorting the un-sorted appended list. -/
theorem pySort_sorted_append (X : List String) (v : String) :
    pySort (pySort X ++ [v]) = pySort (X ++ [v]) :=
  pySort_eq_of_perm ((pySort_perm X).append_right [v])

/-- Sorting a list that is already sorted leaves it unchanged. -/
theorem pySort_of_sorted {l : List String} (h : l.Sorted (· ≤ ·)) : pySort l = l :=
  List.eq_of_perm_of_sorted (pySort_perm l) (pySort_sorted l) h

/-- Erasing commutes with sorting. -/
theorem pySort_erase (X : List String) (v : String) :
    (pySort X).erase v = pySort (X.erase v) :=
  List.eq_of_perm_of_sorted
    (((pySort_perm X).erase v).trans (pySort_perm (X.erase v)).symm)
    ((pySort_sorted X).erase v)
    (pySort_sorted (X.erase v))


/-! ## Association-list lemmas -/

theorem lookupA_setA_self {α : Type} :
    ∀ (es : List (String × α)) (k : String) (v w : α),
      lookupA es k = some w → lookupA (setA es k v) k = some v
  | [], _, _, _, h => by simp [lookupA] at h
  | (k0, v0) :: es, k, v, w, h => by
    by_cases hk : k0 = k
    · simp [lookupA, setA, hk]
    · simp only [lookupA, setA, if_neg hk] at h ⊢
      exact lookupA_setA_self es k v w h

theorem lookupA_setA_other {α : Type} :
    ∀ (es : List (String × α)) (k j : String) (v : α), j ≠ k →
      lookupA (setA es k v) j = lookupA es j
  | [], _, _, _, _ => rfl
  | (k0, v0) :: es, k, j, v, hjk => by
    by_cases hk : k0 = k
    · subst hk
      have hne : ¬ k0 = j := fun hh => hjk hh.symm
      simp [setA, lookupA, hne]
    · simp only [setA, if_neg hk, lookupA]
      by_cases hj : k0 = j
      · simp [hj]
      · simp only [if_neg hj]
        exact lookupA_setA_other es k j v hjk

theorem lookupA_append_some {α : Type} :
    ∀ (es es2 : List (String × α)) (k : String) (v : α),
      lookupA es k = some v → lookupA (es ++ es2) k = some v
  | [], _, _, _, h => by simp [lookupA] at h
  | (k0, v0) :: es, es2, k, v, h => by
    by_cases hk : k0 = k
    · simp only [lookupA, if_pos hk] at h ⊢; exact h
    · simp only [lookupA, if_neg hk] at h ⊢
      exact lookupA_append_some es es2 k v h

theorem lookupA_append_none {α : Type} :
    ∀ (es es2 : List (String × α)) (k : String),
      lookupA es k = none → lookupA (es ++ es2) k = lookupA es2 k
  | [], _, _, _ => rfl
  | (k0, v0) :: es, es2, k, h => by
    by_cases hk : k0 = k
    · simp [lookupA, if_pos hk] at h
    · simp only [lookupA, if_neg hk] at h ⊢
      exact lookupA_append_none es es2 k h

theorem lookupA_eq_none_iff {α : Type} :
    ∀ (es : List (String × α)) (k : String),
      lookupA es k = none ↔ k ∉ es.map Prod.fst
  | [], _ => by simp [lookupA]
  | (k0, v0) :: es, k => by
    by_cases hk : k0 = k
    · simp [lookupA, hk]
    · simp only [lookupA, if_neg hk, List.map_cons, List.mem_cons]
      rw [lookupA_eq_none_iff es k]
      constructor
      · rintro h (rfl | hm)
        · exact hk rfl
        · exact h hm
      · intro h hm
        exact h (Or.inr hm)

theorem setA_map_fst {α : Type} :
    ∀ (es : List (String × α)) (k : String) (v : α),
      (setA es k v).map Prod.fst = es.map Prod.fst
  | [], _, _ => rfl
  | (k0, v0) :: es, k, v => by
    by_cases hk : k0 = k
    · simp [setA, hk]
    · simp only [setA, if_neg hk, List.map_cons, List.cons.injEq, true_and]
      exact setA_map_fst es k v

theorem eraseA_map_fst {α : Type} :
    ∀ (es : List (String × α)) (k : String),
      (eraseA es k).map Prod.fst = (es.map Prod.fst).erase k
  | [], _ => rfl
  | (k0, v0) :: es, k => by
    by_cases hk : k0 = k
    · subst hk
      simp [eraseA, List.erase_cons_head]
    · rw [eraseA, if_neg hk, List.map_cons, List.map_cons,
        List.erase_cons_tail, eraseA_map_fst es k]
      simp [hk]

theorem lookupA_eraseA_other {α : Type} :
    ∀ (es : List (String × α)) (k j : String), j ≠ k →
      lookupA (eraseA es k) j = lookupA es j
  | [], _, _, _ => rfl
  | (k0, v0) :: es, k, j, hjk => by
    by_cases hk : k0 = k
    · subst hk
      have hne : ¬ k0 = j := fun hh => hjk hh.symm
      simp [eraseA, lookupA, hne]
    · simp only [eraseA, if_neg hk, lookupA]
      by_cases hj : k0 = j
      · simp [hj]
      · simp only [if_neg hj]
        exact lookupA_eraseA_other es k j hjk

theorem lookupA_eraseA_self_of_nodup {α : Type} :
    ∀ (es : List (String × α)) (k : String), (es.map Prod.fst).Nodup →
      lookupA (eraseA es k) k = none
  | [], _, _ => rfl
  | (k0, v0) :: es, k, hnd => by
    rw [List.map_cons, List.nodup_cons] at hnd
    by_cases hk : k0 = k
    · subst hk
      rw [eraseA, if_pos rfl, lookupA_eq_none_iff]
      exact hnd.1
    · rw [eraseA, if_neg hk, lookupA, if_neg hk]
      exact lookupA_eraseA_self_of_nodup es k hnd.2

/-- Lookup in an association list found as `some` implies membership of
the key. -/
theorem lookupA_isSome_mem {α : Type} :
    ∀ (es : List (String × α)) (k : String) (v : α),
      lookupA es k = some v → (k, v) ∈ es
  | [], _, _, h => by simp [lookupA] at h
  | (k0, v0) :: es, k, v, h => by
    by_cases hk : k0 = k
    · subst hk
      simp only [lookupA, if_true, eq_self_iff_true, Option.some.injEq] at h
      subst h
      exact List.mem_cons_self _ _
    · simp only [lookupA, if_neg hk] at h
      exact List.mem_cons_of_mem _ (lookupA_isSome_mem es k v h)

/-- Lookup agrees on permuted association lists with duplicate-free
keys. -/
theorem lookupA_perm {α : Type} {l l' : List (String × α)}
    (hnd : (l.map Prod.fst).Nodup) (hp : List.Perm l l') (k : String) :
    lookupA l k = lookupA l' k := by
  induction hp with
  | nil => rfl
  | cons x l ih =>
    rcases x with ⟨k0, v0⟩
    by_cases hk : k0 = k
    · simp [lookupA, hk]
    · rw [List.map_cons, List.nodup_cons] at hnd
      simp only [lookupA, if_neg hk]
      exact ih hnd.2
  | swap x y l =>
    rcases x with ⟨k0, v0⟩
    rcases y with ⟨k1, v1⟩
    simp only [List.map_cons, List.nodup_cons, List.mem_cons] at hnd
    by_cases h0 : k1 = k
    · subst h0
      have hne : ¬ k0 = k1 := fun h => hnd.1 (Or.inl h.symm)
      simp [lookupA, if_neg hne]
    · by_cases h1 : k0 = k
      · simp [lookupA, h1, if_neg h0]
      · simp [lookupA, if_neg h0, if_neg h1]
  | trans h12 h23 ih1 ih2 =>
    rw [ih1 hnd, ih2]
    rw [← List.Perm.nodup_iff (List.Perm.map Prod.fst h12)]
    exact hnd

/-! ## Path and tree lemmas -/

theorem splitLast_append : ∀ (pp : List String) (k : String),
    splitLast (pp ++ [k]) = some (pp, k)
  | [], k => rfl
  | a :: pp, k => by
    cases pp with
    | nil => rfl
    | cons b pp =>
      have h := splitLast_append (b :: pp) k
      rw [List.cons_append] at h
      simp only [List.cons_append, splitLast, List.append_eq]
      rw [h]
      rfl

theorem lookupE_append : ∀ (p q : List String) (e : Entry),
    lookupE (p ++ q) e = (lookupE p e).bind (lookupE q)
  | [], q, e => rfl
  | k :: p, q, e => by
    cases e with
    | file c => rfl
    | dir es =>
      simp only [List.cons_append, lookupE]
      cases lookupA es k with
      | none => rfl
      | some e' => exact lookupE_append p q e'

theorem updateAt_ok : ∀ (pp : List String)
    (f : List (String × Entry) → Option (List (String × Entry))) (fs fs' : Entry),
    updateAt pp f fs = some fs' →
    ∃ es es', lookupE pp fs = some (.dir es) ∧ f es = some es' ∧
      lookupE pp fs' = some (.dir es')
  | [], f, fs, fs', h => by
    cases fs with
    | file c => simp [updateAt] at h
    | dir es =>
      simp only [updateAt, Option.map_eq_some'] at h
      obtain ⟨es', hf, rfl⟩ := h
      exact ⟨es, es', rfl, hf, rfl⟩
  | k :: pp, f, fs, fs', h => by
    cases fs with
    | file c => simp [updateAt] at h
    | dir es =>
      simp only [updateAt] at h
      cases hl : lookupA es k with
      | none => rw [hl] at h; simp at h
      | some ce =>
        rw [hl] at h
        simp only [Option.map_eq_some'] at h
        obtain ⟨ce', hce, rfl⟩ := h
        obtain ⟨es1, es1', h1, h2, h3⟩ := updateAt_ok pp f ce ce' hce
        refine ⟨es1, es1', ?_, h2, ?_⟩
        · simp only [lookupE, hl]; exact h1
        · simp only [lookupE, lookupA_setA_self es k ce' ce hl]; exact h3

theorem updateAt_frame : ∀ (pp : List String)
    (f : List (String × Entry) → Option (List (String × Entry))) (fs fs' : Entry),
    updateAt pp f fs = some fs' →
    ∀ q : List String, ¬ q <+: pp → ¬ pp <+: q → lookupE q fs' = lookupE q fs
  | [], f, fs, fs', h, q, hq, hq2 => absurd (List.nil_prefix) hq2
  | k :: pp, f, fs, fs', h, q, hq, hq2 => by
    cases fs with
    | file c => simp [updateAt] at h
    | dir es =>
      simp only [updateAt] at h
      cases hl : lookupA es k with
      | none => rw [hl] at h; simp at h
      | some ce =>
        rw [hl] at h
        simp only [Option.map_eq_some'] at h
        obtain ⟨ce', hce, rfl⟩ := h
        cases q with
        | nil => exact absurd (List.nil_prefix) hq
        | cons j q =>
          by_cases hjk : j = k
          · subst hjk
            simp only [lookupE, lookupA_setA_self es j ce' ce hl, hl]
            refine updateAt_frame pp f ce ce' hce q ?_ ?_
            · intro hc; exact hq (List.cons_prefix_cons.2 ⟨rfl, hc⟩)
            · intro hc; exact hq2 (List.cons_prefix_cons.2 ⟨rfl, hc⟩)
          · simp only [lookupE, lookupA_setA_other es k j ce' hjk]

/-- Updating below a directory at path `q ++ j :: rest` rewrites, at the
level of the directory at `q`, exactly the binding of `j`. -/
theorem updateAt_cons_at : ∀ (q : List String) (j : String) (rest : List String)
    (f : List (String × Entry) → Option (List (String × Entry))) (fs fs' : Entry)
    (es : List (String × Entry)),
    updateAt (q ++ j :: rest) f fs = some fs' →
    lookupE q fs = some (.dir es) →
    ∃ ce ce', lookupA es j = some ce ∧ updateAt rest f ce = some ce' ∧
      lookupE q fs' = some (.dir (setA es j ce'))
  | [], j, rest, f, fs, fs', es, h, hq => by
    simp only [lookupE, Option.some.injEq] at hq
    subst hq
    simp only [List.nil_append, updateAt] at h
    cases hl : lookupA es j with
    | none => rw [hl] at h; simp at h
    | some ce =>
      rw [hl] at h
      simp only [Option.map_eq_some'] at h
      obtain ⟨ce', hce, rfl⟩ := h
      exact ⟨ce, ce', rfl, hce, rfl⟩
  | a :: q, j, rest, f, fs, fs', es, h, hq => by
    cases fs with
    | file c => simp [updateAt] at h
    | dir es0 =>
      simp only [List.cons_append, updateAt] at h
      cases hl : lookupA es0 a with
      | none => rw [hl] at h; simp at h
      | some ce0 =>
        rw [hl] at h
        simp only [Option.map_eq_some'] at h
        obtain ⟨ce0', hce0, rfl⟩ := h
        simp only [lookupE, hl] at hq
        obtain ⟨ce, ce', h1, h2, h3⟩ := updateAt_cons_at q j rest f ce0 ce0' es hce0 hq
        refine ⟨ce, ce', h1, h2, ?_⟩
        simp only [lookupE, lookupA_setA_self es0 a ce0' ce0 hl]
        exact h3


theorem lookupA_snoc_other {α : Type} (es : List (String × α)) (k j : String) (x : α)
    (hjk : j ≠ k) : lookupA (es ++ [(k, x)]) j = lookupA es j := by
  cases hl : lookupA es j with
  | some v => exact lookupA_append_some es [(k, x)] j v hl
  | none =>
    rw [lookupA_append_none es [(k, x)] j hl]
    have hne : ¬ k = j := fun hh => hjk hh.symm
    simp [lookupA, hne, hl]

theorem lookupA_snoc_self {α : Type} (es : List (String × α)) (k : String) (x : α)
    (hk : lookupA es k = none) : lookupA (es ++ [(k, x)]) k = some x := by
  rw [lookupA_append_none es [(k, x)] k hk]
  simp [lookupA]

/-! ## Specifications of the filesystem operations -/

theorem mkdirE_ok {pp : List String} {k : String} {fs fs' : Entry}
    (h : mkdirE (pp ++ [k]) fs = some fs') :
    ∃ es, lookupE pp fs = some (.dir es) ∧ lookupA es k = none ∧
      lookupE pp fs' = some (.dir (es ++ [(k, Entry.dir [])])) := by
  unfold mkdirE at h
  rw [splitLast_append] at h
  obtain ⟨es, es', h1, h2, h3⟩ := updateAt_ok pp _ fs fs' h
  refine ⟨es, h1, ?_, ?_⟩
  · by_cases hl : (lookupA es k).isSome
    · rw [if_pos hl] at h2; simp at h2
    · rw [Option.not_isSome_iff_eq_none] at hl; exact hl
  · by_cases hl : (lookupA es k).isSome
    · rw [if_pos hl] at h2; simp at h2
    · rw [if_neg hl] at h2
      simp only [Option.some.injEq] at h2
      rw [h2]
      exact h3

theorem writeFileE_ok {pp : List String} {k : String} {c : FileContent} {fs fs' : Entry}
    (h : writeFileE (pp ++ [k]) c fs = some fs') :
    ∃ es es', lookupE pp fs = some (.dir es) ∧
      lookupE pp fs' = some (.dir es') ∧
      lookupA es' k = some (.file c) ∧
      (∀ j, j ≠ k → lookupA es' j = lookupA es j) ∧
      es'.map Prod.fst = es.map Prod.fst ++ (if (lookupA es k).isSome then [] else [k]) ∧
      (lookupA es k = none → es' = es ++ [(k, Entry.file c)]) ∧
      (∀ c0, lookupA es k = some (.file c0) → es' = setA es k (.file c)) ∧
      (∀ d, lookupA es k ≠ some (.dir d)) := by
  unfold writeFileE at h
  rw [splitLast_append] at h
  obtain ⟨es, es', h1, h2, h3⟩ := updateAt_ok pp _ fs fs' h
  cases hl : lookupA es k with
  | none =>
    rw [hl] at h2
    simp only [Option.some.injEq] at h2
    subst h2
    refine ⟨es, _, h1, h3, lookupA_snoc_self es k _ hl, ?_, ?_, fun _ => rfl, ?_, ?_⟩
    · intro j hj; exact lookupA_snoc_other es k j _ hj
    · simp [hl]
    · intro c0 hc0; rw [hl] at hc0; cases hc0
    · intro d hd; rw [hl] at hd; cases hd
  | some e0 =>
    rw [hl] at h2
    cases e0 with
    | dir d => simp at h2
    | file c0 =>
      simp only [Option.some.injEq] at h2
      subst h2
      refine ⟨es, _, h1, h3, lookupA_setA_self es k _ _ hl, ?_, ?_, ?_, fun _ _ => rfl, ?_⟩
      · intro j hj; exact lookupA_setA_other es k j _ hj
      · simp [hl, setA_map_fst]
      · intro hn; rw [hl] at hn; cases hn
      · intro d hd; rw [hl] at hd; cases hd

theorem rmtreeE_ok {pp : List String} {k : String} {fs fs' : Entry}
    (h : rmtreeE (pp ++ [k]) fs = some fs') :
    ∃ es d, lookupE pp fs = some (.dir es) ∧ lookupA es k = some (.dir d) ∧
      lookupE pp fs' = some (.dir (eraseA es k)) := by
  unfold rmtreeE at h
  rw [splitLast_append] at h
  obtain ⟨es, es', h1, h2, h3⟩ := updateAt_ok pp _ fs fs' h
  cases hl : lookupA es k with
  | none => rw [hl] at h2; simp at h2
  | some e0 =>
    rw [hl] at h2
    cases e0 with
    | file c => simp at h2
    | dir d =>
      simp only [Option.some.injEq] at h2
      subst h2
      exact ⟨es, d, h1, hl, h3⟩

theorem mkdirE_frame {pp : List String} {k : String} {fs fs' : Entry}
    (h : mkdirE (pp ++ [k]) fs = some fs') (q : List String)
    (hq : ¬ q <+: pp) (hq2 : ¬ pp <+: q) : lookupE q fs' = lookupE q fs := by
  unfold mkdirE at h
  rw [splitLast_append] at h
  exact updateAt_frame pp _ fs fs' h q hq hq2

theorem writeFileE_frame {pp : List String} {k : String} {c : FileContent} {fs fs' : Entry}
    (h : writeFileE (pp ++ [k]) c fs = some fs') (q : List String)
    (hq : ¬ q <+: pp) (hq2 : ¬ pp <+: q) : lookupE q fs' = lookupE q fs := by
  unfold writeFileE at h
  rw [splitLast_append] at h
  exact updateAt_frame pp _ fs fs' h q hq hq2

theorem rmtreeE_frame {pp : List String} {k : String} {fs fs' : Entry}
    (h : rmtreeE (pp ++ [k]) fs = some fs') (q : List String)
    (hq : ¬ q <+: pp) (hq2 : ¬ pp <+: q) : lookupE q fs' = lookupE q fs := by
  unfold rmtreeE at h
  rw [splitLast_append] at h
  exact updateAt_frame pp _ fs fs' h q hq hq2


/-! ## Concrete demonstration states (used by witnesses) -/

/-- An external filesystem with no files (no overrides and no patches are
needed by the demonstration descriptor). -/
def demoExt : ExtFS := fun _ => Option.none

/-- A fully populated demonstration descriptor. -/
def demoModule : Module :=
  { name := some "demo", version := some "1.0",
    deps := [("foo", "1.0"), ("bar", "2.0")],
    build_targets := ["//:lib"],
    source? := some ⟨"https://example.com/demo-1.0.tar.gz", "sha256-deadbeef", Option.none⟩ }

/-- Extract the state from a client-operation result (for building
concrete demonstration states). -/
def orState (r : RegResult) : Entry :=
  match r with
  | .ok s => s
  | .error (_, s) => s

/-- The registry after `init_module("demo", [], "https://example.com")`
on a fresh registry. -/
def demoRegistry1 : Entry :=
  orState (RegistryClient.init_module emptyRegistry "demo" (.arr []) "https://example.com")

/-- The registry after additionally `add(demoModule)`. -/
def demoRegistry2 : Entry :=
  orState (RegistryClient.add demoRegistry1 demoExt demoModule)

/-! ## Claim C10 -/

/-- C10: `contains` with a falsy version argument (`None` or `""`)
checks only the module directory and ignores the version entirely. -/
theorem claim_C10_contains_falsy_version (fs : Entry) (nm : String) (v : Option String)
    (hv : pyTruthy v = false) :
    RegistryClient.contains fs nm v = isDirE (pj (pj [] "modules") nm) fs := by
  unfold RegistryClient.contains
  rw [hv]
  rfl

/-- Witness for C10: on the demonstration registry, `contains("demo", "")`
consults only `modules/demo/` and returns `true`, although no version
subdirectory named `""` exists. -/
theorem claim_C10_contains_falsy_version_witness :
    pyTruthy (some "") = false ∧
    RegistryClient.contains demoRegistry2 "demo" (some "") =
      isDirE (pj (pj [] "modules") "demo") demoRegistry2 ∧
    RegistryClient.contains demoRegistry2 "demo" (some "") = true ∧
    RegistryClient.contains demoRegistry2 "demo" Option.none = true :=
  ⟨rfl, claim_C10_contains_falsy_version demoRegistry2 "demo" (some "") rfl, rfl, rfl⟩

/-! ## Claim C9 -/

/-- C9 counterexample: the claim "every builder-style mutator returns the
descriptor itself for chaining" fails for `set_module_dot_bazel`, whose
body has no `return` statement: at a concrete input its return value is
`None`, not the descriptor. -/
theorem claim_C9_counterexample :
    ¬ (Module.set_module_dot_bazel {} (some "MODULE.bazel")).2 =
        some (Module.set_module_dot_bazel {} (some "MODULE.bazel")).1 := by
  simp [Module.set_module_dot_bazel]

/-- C9 (amended): every builder-style mutator of `Module` performs a pure
in-memory update of exactly its field, and every one of them except
`set_module_dot_bazel` returns the updated descriptor itself for
chaining; `set_module_dot_bazel` performs the same kind of pure update
but returns `None`. -/
theorem claim_C9_amended (m : Module) (a b : String) (o : Option String) :
    (m.add_dep a b).2 = some (m.add_dep a b).1 ∧
    (m.add_dep a b).1 = { m with deps := m.deps ++ [(a, b)] } ∧
    (m.set_source a b o).2 = some (m.set_source a b o).1 ∧
    (m.set_source a b o).1 = { m with source? := some ⟨a, b, o⟩ } ∧
    (m.add_patch a).2 = some (m.add_patch a).1 ∧
    (m.add_patch a).1 = { m with patches := m.patches ++ [a] } ∧
    (m.set_presubmit_yml o).2 = some (m.set_presubmit_yml o).1 ∧
    (m.set_presubmit_yml o).1 = { m with presubmit_yml := o } ∧
    (m.add_build_target a).2 = some (m.add_build_target a).1 ∧
    (m.add_build_target a).1 = { m with build_targets := m.build_targets ++ [a] } ∧
    (m.add_test_targets a).2 = some (m.add_test_targets a).1 ∧
    (m.add_test_targets a).1 = { m with test_targets := m.test_targets ++ [a] } ∧
    (m.set_module_dot_bazel o).1 = { m with module_dot_bazel := o } ∧
    (m.set_module_dot_bazel o).2 = Option.none :=
  ⟨rfl, rfl, rfl, rfl, rfl, rfl, rfl, rfl, rfl, rfl, rfl, rfl, rfl, rfl⟩

/-! ## Claim C8 -/

/-- The call `client.add(module)` observed together with the descriptor
object after the call.  The translation of the method body (see `add` and
its helpers) contains no assignment to any attribute of `module` — every
occurrence of the descriptor is a read (the generated presubmit
additionally copies `build_targets`/`test_targets` with `list.copy()`),
so the descriptor after the call is the value that was passed in. -/
def RegistryClient.addWithDescriptor (fs : Entry) (ext : ExtFS) (m : Module) :
    RegResult × Module :=
  (RegistryClient.add fs ext m, m)

/-- C8: a call to `add` — successful or failing — never mutates any field
of the descriptor. -/
theorem claim_C8_add_never_mutates_descriptor (fs : Entry) (ext : ExtFS) (m : Module) :
    (RegistryClient.addWithDescriptor fs ext m).1 = RegistryClient.add fs ext m ∧
    (RegistryClient.addWithDescriptor fs ext m).2.name = m.name ∧
    (RegistryClient.addWithDescriptor fs ext m).2.version = m.version ∧
    (RegistryClient.addWithDescriptor fs ext m).2.compatibility_level =
      m.compatibility_level ∧
    (RegistryClient.addWithDescriptor fs ext m).2.source? = m.source? ∧
    (RegistryClient.addWithDescriptor fs ext m).2.patches = m.patches ∧
    (RegistryClient.addWithDescriptor fs ext m).2.deps = m.deps ∧
    (RegistryClient.addWithDescriptor fs ext m).2.module_dot_bazel = m.module_dot_bazel ∧
    (RegistryClient.addWithDescriptor fs ext m).2.presubmit_yml = m.presubmit_yml ∧
    (RegistryClient.addWithDescriptor fs ext m).2.build_targets = m.build_targets ∧
    (RegistryClient.addWithDescriptor fs ext m).2.test_targets = m.test_targets :=
  ⟨rfl, rfl, rfl, rfl, rfl, rfl, rfl, rfl, rfl, rfl, rfl⟩

/-! ## Claim C1 -/

/-- C1: when the registry already contains the `(name, version)` the
descriptor carries, `add` raises the duplicate-version
`RegistryModifyException` and the registry state is exactly the state
before the call (the guard is the first statement of `add`; nothing has
been written when it fires). -/
theorem claim_C1_duplicate_add_rejected (fs : Entry) (ext : ExtFS) (m : Module)
    (nm : String) (hn : m.name = some nm)
    (hc : RegistryClient.contains fs nm m.version = true) :
    RegistryClient.add fs ext m = .error (.duplicate, fs) := by
  unfold RegistryClient.add
  rw [hn]
  simp [hc]

/-- Witness for C1: adding `demoModule` twice; the second call fails with
the duplicate-version error and returns the state produced by the first
call unchanged. -/
theorem claim_C1_duplicate_add_rejected_witness :
    RegistryClient.add demoRegistry1 demoExt demoModule = .ok demoRegistry2 ∧
    RegistryClient.add demoRegistry2 demoExt demoModule =
      .error (.duplicate, demoRegistry2) :=
  ⟨rfl, claim_C1_duplicate_add_rejected demoRegistry2 demoExt demoModule "demo" rfl rfl⟩

/-! ## Claim C4 (counterexample part) -/

/-- A descriptor with one dependency, for the round-trip counterexample. -/
def demoRoundtripModule : Module :=
  { name := some "demo", version := some "1.0", deps := [("foo", "1.0")] }

/-- C4 counterexample: serializing a descriptor carrying a dependency and
reloading it does not reproduce an identical field set: the `deps` field
comes back as a list of two-element lists, while the original holds a
list of tuples (JSON has no tuples), and in Python a tuple never equals a
list.  Stated as: the reloaded `__dict__` does not agree, key by key,
with the original `__dict__`. -/
theorem claim_C4_counterexample :
    ¬ ∃ d', Module.reloadDict demoRoundtripModule = PyVal.dict d' ∧
        ∀ k, lookupPy d' k = lookupPy demoRoundtripModule.pyDict k := by
  rintro ⟨d', hd, hall⟩
  have hconc : Module.reloadDict demoRoundtripModule = PyVal.dict
      [("build_targets", .list []), ("compatibility_level", .int 1),
       ("deps", .list [.list [.str "foo", .str "1.0"]]),
       ("module_dot_bazel", .none), ("name", .str "demo"), ("patches", .list []),
       ("presubmit_yml", .none), ("test_targets", .list []),
       ("version", .str "1.0")] := rfl
  rw [hconc] at hd
  injection hd with hd'
  subst hd'
  have h := hall "deps"
  have h1 : lookupPy
      [("build_targets", PyVal.list []), ("compatibility_level", PyVal.int 1),
       ("deps", PyVal.list [.list [.str "foo", .str "1.0"]]),
       ("module_dot_bazel", PyVal.none), ("name", PyVal.str "demo"),
       ("patches", PyVal.list []), ("presubmit_yml", PyVal.none),
       ("test_targets", PyVal.list []), ("version", PyVal.str "1.0")] "deps" =
      some (PyVal.list [.list [.str "foo", .str "1.0"]]) := rfl
  have h2 : lookupPy demoRoundtripModule.pyDict "deps" =
      some (PyVal.list [.tuple [.str "foo", .str "1.0"]]) := rfl
  rw [h1, h2] at h
  simp at h


/-! ## Claim C4 (amended part): the round trip up to tuples-become-lists -/

theorem toJsonFields_eq_map (l : List (String × PyVal)) :
    PyVal.toJsonFields l = l.map fun kv => (kv.1, kv.2.toJson) := by
  induction l with
  | nil => rfl
  | cons kv l ih =>
    rcases kv with ⟨k, v⟩
    simp [PyVal.toJsonFields, ih]

theorem toPyValFields_eq_map (l : List (String × JVal)) :
    JVal.toPyValFields l = l.map fun kv => (kv.1, JVal.toPyVal kv.2) := by
  induction l with
  | nil => rfl
  | cons kv l ih =>
    rcases kv with ⟨k, v⟩
    simp [JVal.toPyValFields, ih]

theorem lookupA_map_values {α β : Type} (l : List (String × α)) (f : α → β) (k : String) :
    lookupA (l.map fun kv => (kv.1, f kv.2)) k = (lookupA l k).map f := by
  induction l with
  | nil => rfl
  | cons kv l ih =>
    rcases kv with ⟨k0, v0⟩
    by_cases hk : k0 = k
    · simp [lookupA, hk]
    · simp only [List.map_cons, lookupA, if_neg hk]
      exact ih

theorem toJsonList_str (xs : List String) :
    PyVal.toJsonList (xs.map PyVal.str) = xs.map JVal.str := by
  induction xs with
  | nil => rfl
  | cons x xs ih => simp [PyVal.toJsonList, PyVal.toJson, ih]

theorem toPyValList_str (xs : List String) :
    JVal.toPyValList (xs.map JVal.str) = xs.map PyVal.str := by
  induction xs with
  | nil => rfl
  | cons x xs ih => simp [JVal.toPyValList, JVal.toPyVal, ih]

theorem detupleList_str (xs : List String) :
    PyVal.detupleList (xs.map PyVal.str) = xs.map PyVal.str := by
  induction xs with
  | nil => rfl
  | cons x xs ih => simp [PyVal.detupleList, PyVal.detuple, ih]

theorem rt_strList (xs : List String) :
    JVal.toPyVal (PyVal.toJson (.list (xs.map PyVal.str))) =
      PyVal.detuple (.list (xs.map PyVal.str)) := by
  simp [PyVal.toJson, JVal.toPyVal, PyVal.detuple, toJsonList_str, toPyValList_str,
    detupleList_str]

theorem toJsonList_deps (deps : List (String × String)) :
    PyVal.toJsonList (deps.map fun d => PyVal.tuple [.str d.1, .str d.2]) =
      deps.map fun d => JVal.arr [.str d.1, .str d.2] := by
  induction deps with
  | nil => rfl
  | cons d deps ih =>
    simp [PyVal.toJsonList, PyVal.toJson, ih]

theorem toPyValList_deps (deps : List (String × String)) :
    JVal.toPyValList (deps.map fun d => JVal.arr [.str d.1, .str d.2]) =
      deps.map fun d => PyVal.list [.str d.1, .str d.2] := by
  induction deps with
  | nil => rfl
  | cons d deps ih =>
    simp [JVal.toPyValList, JVal.toPyVal, ih]

theorem detupleList_deps (deps : List (String × String)) :
    PyVal.detupleList (deps.map fun d => PyVal.tuple [.str d.1, .str d.2]) =
      deps.map fun d => PyVal.list [.str d.1, .str d.2] := by
  induction deps with
  | nil => rfl
  | cons d deps ih =>
    simp [PyVal.detupleList, PyVal.detuple, ih]

theorem rt_deps (deps : List (String × String)) :
    JVal.toPyVal (PyVal.toJson (.list (deps.map fun d => PyVal.tuple [.str d.1, .str d.2]))) =
      PyVal.detuple (.list (deps.map fun d => PyVal.tuple [.str d.1, .str d.2])) := by
  simp [PyVal.toJson, JVal.toPyVal, PyVal.detuple, toJsonList_deps, toPyValList_deps,
    detupleList_deps]

theorem rt_ostr (o : Option String) :
    JVal.toPyVal (PyVal.toJson (PyVal.ostr o)) = PyVal.detuple (PyVal.ostr o) := by
  cases o <;> rfl

theorem rt_scalar (c : PyScalar) :
    JVal.toPyVal (PyVal.toJson c.toPyVal) = PyVal.detuple c.toPyVal := by
  cases c <;> rfl

/-- Pointwise round trip of every value stored in a descriptor's
`__dict__`. -/
theorem rt_pyDict_values (m : Module) :
    ∀ kv ∈ m.pyDict, JVal.toPyVal (PyVal.toJson kv.2) = PyVal.detuple kv.2 := by
  intro kv hkv
  unfold Module.pyDict at hkv
  rw [List.mem_append] at hkv
  rcases hkv with hkv | hkv
  · simp only [List.mem_cons, List.not_mem_nil, or_false] at hkv
    rcases hkv with rfl | rfl | rfl | rfl | rfl | rfl | rfl | rfl | rfl
    · exact rt_ostr m.name
    · exact rt_ostr m.version
    · exact rt_scalar m.compatibility_level
    · exact rt_ostr m.module_dot_bazel
    · exact rt_deps m.deps
    · exact rt_strList m.patches
    · exact rt_ostr m.presubmit_yml
    · exact rt_strList m.build_targets
    · exact rt_strList m.test_targets
  · cases hsrc : m.source? with
    | none => rw [hsrc] at hkv; cases hkv
    | some src =>
      rw [hsrc] at hkv
      simp only [List.mem_cons, List.not_mem_nil, or_false] at hkv
      rcases hkv with rfl | rfl | rfl
      · rfl
      · rfl
      · exact rt_ostr (SourceInfo.strip_prefix src)

/-- The keys of a descriptor's `__dict__` are pairwise distinct. -/
theorem pyDict_keys_nodup (m : Module) : (m.pyDict.map Prod.fst).Nodup := by
  unfold Module.pyDict
  cases m.source? with
  | none =>
    simp only [List.append_nil, List.map_cons, List.map_nil]
    decide
  | some src =>
    simp only [List.map_append, List.map_cons, List.map_nil]
    decide

/-- Values of non-`deps` attributes contain no tuples, so `detuple` fixes
them. -/
theorem detuple_ostr (o : Option String) : PyVal.detuple (PyVal.ostr o) = PyVal.ostr o := by
  cases o <;> rfl

theorem detuple_pyDict_value_ne_deps (m : Module) :
    ∀ kv ∈ m.pyDict, kv.1 ≠ "deps" → PyVal.detuple kv.2 = kv.2 := by
  intro kv hkv hne
  unfold Module.pyDict at hkv
  rw [List.mem_append] at hkv
  rcases hkv with hkv | hkv
  · simp only [List.mem_cons, List.not_mem_nil, or_false] at hkv
    rcases hkv with rfl | rfl | rfl | rfl | rfl | rfl | rfl | rfl | rfl
    · exact detuple_ostr m.name
    · exact detuple_ostr m.version
    · cases m.compatibility_level <;> rfl
    · exact detuple_ostr m.module_dot_bazel
    · exact absurd rfl hne
    · exact congrArg PyVal.list (detupleList_str m.patches)
    · exact detuple_ostr m.presubmit_yml
    · exact congrArg PyVal.list (detupleList_str m.build_targets)
    · exact congrArg PyVal.list (detupleList_str m.test_targets)
  · cases hsrc : m.source? with
    | none => rw [hsrc] at hkv; cases hkv
    | some src =>
      rw [hsrc] at hkv
      simp only [List.mem_cons, List.not_mem_nil, or_false] at hkv
      rcases hkv with rfl | rfl | rfl
      · rfl
      · rfl
      · exact detuple_ostr (SourceInfo.strip_prefix src)

theorem lookupA_pyDict_deps (m : Module) :
    lookupA m.pyDict "deps" =
      some (PyVal.list (m.deps.map fun d => PyVal.tuple [.str d.1, .str d.2])) := by
  unfold Module.pyDict
  rfl

/-- C4 (amended): the reloaded field set agrees with the original on
every key except `deps`, and on `deps` it holds the same pairs with each
tuple reloaded as a list; in one clause, reloaded lookup equals original
lookup with every tuple replaced by a list. -/
theorem claim_C4_amended (m : Module) :
    ∃ d', Module.reloadDict m = PyVal.dict d' ∧
      (∀ k, lookupPy d' k = (lookupPy m.pyDict k).map PyVal.detuple) ∧
      (∀ k, k ≠ "deps" → lookupPy d' k = lookupPy m.pyDict k) ∧
      lookupPy d' "deps" =
        some (PyVal.list (m.deps.map fun d => PyVal.list [.str d.1, .str d.2])) := by
  unfold Module.reloadDict Module.dumpJson
  rw [PyVal.toJson, JVal.toPyVal]
  refine ⟨_, rfl, ?_⟩
  have hmain : ∀ k, lookupPy (JVal.toPyValFields
      (sortBy (fun a b => pyStrLe a.1 b.1) (PyVal.toJsonFields m.pyDict))) k =
      (lookupPy m.pyDict k).map PyVal.detuple := by
    intro k
    unfold lookupPy
    rw [toPyValFields_eq_map, lookupA_map_values]
    have hnodup : ((sortBy (fun a b => pyStrLe a.1 b.1) (PyVal.toJsonFields m.pyDict)).map
        Prod.fst).Nodup := by
      rw [List.Perm.nodup_iff
        (List.Perm.map Prod.fst (sortBy_perm (fun a b => pyStrLe a.1 b.1)
          (PyVal.toJsonFields m.pyDict)))]
      rw [toJsonFields_eq_map]
      have : ((m.pyDict.map fun kv => (kv.1, kv.2.toJson)).map Prod.fst) =
          m.pyDict.map Prod.fst := by
        rw [List.map_map]; rfl
      rw [this]
      exact pyDict_keys_nodup m
    rw [lookupA_perm hnodup (sortBy_perm _ _) k]
    rw [toJsonFields_eq_map, lookupA_map_values]
    cases hl : lookupA m.pyDict k with
    | none => rfl
    | some v =>
      simp [rt_pyDict_values m (k, v) (lookupA_isSome_mem m.pyDict k v hl)]
  refine ⟨hmain, ?_, ?_⟩
  · intro k hk
    rw [hmain k]
    unfold lookupPy
    cases hl : lookupA m.pyDict k with
    | none => rfl
    | some v =>
      simp [detuple_pyDict_value_ne_deps m (k, v) (lookupA_isSome_mem m.pyDict k v hl) hk]
  · rw [hmain "deps"]
    unfold lookupPy
    rw [lookupA_pyDict_deps]
    simp [PyVal.detuple, detupleList_deps]


/-- Witness for the amended C4 on a concrete descriptor: the `name` field
survives the round trip unchanged, while `deps` comes back with the
tuple as a list. -/
theorem claim_C4_amended_witness :
    ∃ d', Module.reloadDict demoRoundtripModule = PyVal.dict d' ∧
      lookupPy d' "name" = lookupPy demoRoundtripModule.pyDict "name" ∧
      lookupPy d' "deps" = some (PyVal.list [PyVal.list [.str "foo", .str "1.0"]]) := by
  obtain ⟨d', hd, hmain, hne, hdeps⟩ := claim_C4_amended demoRoundtripModule
  refine ⟨d', hd, hne "name" (by decide), ?_⟩
  rw [hdeps]
  rfl

/-! ## Write-step accounting

Every filesystem mutation in `add` and `delete` happens strictly inside
one directory subtree.  `TouchesOnly p ks fs fs'` records that a step
changed at most the entries named in `ks` of the directory at `p` (and
their subtrees), left every path diverging from `p` alone, and kept all
directories on the way to `p` intact with unchanged listings. -/

def TouchesOnly (p : List String) (ks : List String) (fs fs' : Entry) : Prop :=
  (∀ q, ¬ q <+: p → ¬ p <+: q → lookupE q fs' = lookupE q fs) ∧
  (∀ j rest, j ∉ ks → lookupE (p ++ j :: rest) fs' = lookupE (p ++ j :: rest) fs) ∧
  (∀ q es, q <+: p → q ≠ p → lookupE q fs = some (.dir es) →
    ∃ es', lookupE q fs' = some (.dir es') ∧ es'.map Prod.fst = es.map Prod.fst) ∧
  (∀ es, lookupE p fs = some (.dir es) → ∃ es', lookupE p fs' = some (.dir es'))

theorem TouchesOnly.trans {p : List String} {ks1 ks2 : List String} {fs st fs' : Entry}
    (h1 : TouchesOnly p ks1 fs st) (h2 : TouchesOnly p ks2 st fs') :
    TouchesOnly p (ks1 ++ ks2) fs fs' := by
  obtain ⟨f1, u1, a1, d1⟩ := h1
  obtain ⟨f2, u2, a2, d2⟩ := h2
  refine ⟨?_, ?_, ?_, ?_⟩
  · intro q hq hq2
    rw [f2 q hq hq2, f1 q hq hq2]
  · intro j rest hj
    rw [List.mem_append] at hj
    push_neg at hj
    rw [u2 j rest hj.2, u1 j rest hj.1]
  · intro q es hq hne hes
    obtain ⟨es1, h1, hk1⟩ := a1 q es hq hne hes
    obtain ⟨es2, h2, hk2⟩ := a2 q es1 hq hne h1
    exact ⟨es2, h2, hk2.trans hk1⟩
  · intro es hes
    obtain ⟨es1, h1⟩ := d1 es hes
    obtain ⟨es2, h2⟩ := d2 es1 h1
    exact ⟨es2, h2⟩

theorem TouchesOnly.mono {p : List String} {ks ks' : List String} {fs fs' : Entry}
    (h : TouchesOnly p ks fs fs') (hsub : ∀ j, j ∈ ks → j ∈ ks') :
    TouchesOnly p ks' fs fs' := by
  obtain ⟨f, u, a, d⟩ := h
  exact ⟨f, fun j rest hj => u j rest (fun hm => hj (hsub j hm)), a, d⟩

theorem TouchesOnly.refl (p : List String) (ks : List String) (fs : Entry) :
    TouchesOnly p ks fs fs :=
  ⟨fun _ _ _ => rfl, fun _ _ _ => rfl,
   fun q es _ _ hes => ⟨es, hes, rfl⟩, fun es hes => ⟨es, hes⟩⟩

/-- A (possibly empty) chain of updates strictly below the directory at
`q` leaves `q`'s listing unchanged, or keeps the entry of `j` a directory
and rewrites only it. -/
def UnderKey (q : List String) (j : String) (fs fs' : Entry) : Prop :=
  ∀ es, lookupE q fs = some (.dir es) →
    lookupE q fs' = some (.dir es) ∨
    ∃ d d', lookupA es j = some (.dir d) ∧
      lookupE q fs' = some (.dir (setA es j (.dir d')))

theorem setA_setA {α : Type} :
    ∀ (es : List (String × α)) (j : String) (x y : α),
      setA (setA es j x) j y = setA es j y
  | [], _, _, _ => rfl
  | (k0, v0) :: es, j, x, y => by
    by_cases hk : k0 = j
    · simp [setA, hk]
    · simp only [setA, if_neg hk, List.cons.injEq, true_and]
      exact setA_setA es j x y

theorem UnderKey.refl' (q : List String) (j : String) (fs : Entry) :
    UnderKey q j fs fs :=
  fun _ hes => Or.inl hes

theorem UnderKey.trans' {q : List String} {j : String} {fs st fs' : Entry}
    (h1 : UnderKey q j fs st) (h2 : UnderKey q j st fs') : UnderKey q j fs fs' := by
  intro es hes
  rcases h1 es hes with hst | ⟨d, d', hd, hst⟩
  · exact h2 es hst
  · rcases h2 _ hst with hfs' | ⟨e, e', he, hfs'⟩
    · exact Or.inr ⟨d, d', hd, hfs'⟩
    · rw [lookupA_setA_self es j _ _ hd] at he
      rw [setA_setA] at hfs'
      cases he
      exact Or.inr ⟨d, e', hd, hfs'⟩

/-- Any successful `updateAt` maps a directory to a directory. -/
theorem updateAt_dir {r : List String}
    {f : List (String × Entry) → Option (List (String × Entry))} {e e' : Entry}
    (h : updateAt r f e = some e') :
    (∃ d, e = .dir d) ∧ ∃ d', e' = .dir d' := by
  cases r with
  | nil =>
    cases e with
    | file c => simp [updateAt] at h
    | dir d =>
      simp only [updateAt, Option.map_eq_some'] at h
      obtain ⟨es', _, rfl⟩ := h
      exact ⟨⟨d, rfl⟩, ⟨es', rfl⟩⟩
  | cons k ks =>
    cases e with
    | file c => simp [updateAt] at h
    | dir d =>
      simp only [updateAt] at h
      cases hl : lookupA d k with
      | none => rw [hl] at h; simp at h
      | some ce =>
        rw [hl] at h
        simp only [Option.map_eq_some'] at h
        obtain ⟨ce', _, rfl⟩ := h
        exact ⟨⟨d, rfl⟩, ⟨_, rfl⟩⟩

/-- `updateAt` below `q ++ [j]` is an `UnderKey q j` step. -/
theorem updateAt_underKey {q : List String} {j : String} {rest : List String}
    {f : List (String × Entry) → Option (List (String × Entry))} {fs fs' : Entry}
    (h : updateAt (q ++ j :: rest) f fs = some fs') : UnderKey q j fs fs' := by
  intro es hes
  obtain ⟨ce, ce', h1, h2, h3⟩ := updateAt_cons_at q j rest f fs fs' es h hes
  obtain ⟨⟨d, rfl⟩, ⟨d', rfl⟩⟩ := updateAt_dir h2
  exact Or.inr ⟨d, d', h1, h3⟩


theorem lookupE_single (x : String) (es : List (String × Entry)) :
    lookupE [x] (.dir es) = lookupA es x := by
  simp only [lookupE]
  cases lookupA es x <;> rfl

theorem prefix_proper_decomp {q pp : List String} (hq : q <+: pp) (hne : q ≠ pp) :
    ∃ j rest, pp = q ++ j :: rest := by
  obtain ⟨t, rfl⟩ := hq
  cases t with
  | nil => exact absurd (List.append_nil q).symm hne
  | cons j rest => exact ⟨j, rest, rfl⟩

/-- A successful `updateAt pp` whose listing transformation keeps every
entry outside `ks` is a `TouchesOnly pp ks` step. -/
theorem updateAt_touches {pp : List String} {ks : List String}
    {f : List (String × Entry) → Option (List (String × Entry))} {fs fs' : Entry}
    (h : updateAt pp f fs = some fs')
    (hkeep : ∀ es es', f es = some es' → ∀ j, j ∉ ks → lookupA es' j = lookupA es j) :
    TouchesOnly pp ks fs fs' := by
  obtain ⟨es, es', h1, h2, h3⟩ := updateAt_ok pp f fs fs' h
  refine ⟨fun q hq hq2 => updateAt_frame pp f fs fs' h q hq hq2, ?_, ?_, ?_⟩
  · intro j rest hj
    rw [lookupE_append, lookupE_append, h1, h3]
    show lookupE (j :: rest) (Entry.dir es') = lookupE (j :: rest) (Entry.dir es)
    simp only [lookupE, hkeep es es' h2 j hj]
  · intro q es0 hq hne hes0
    obtain ⟨j, rest, rfl⟩ := prefix_proper_decomp hq hne
    obtain ⟨ce, ce', hc1, hc2, hc3⟩ := updateAt_cons_at q j rest f fs fs' es0 h hes0
    exact ⟨setA es0 j ce', hc3, setA_map_fst es0 j ce'⟩
  · intro es0 hes0
    rw [h1] at hes0
    cases hes0
    exact ⟨es', h3⟩

theorem writeFileE_touches {pp : List String} {k : String} {c : FileContent}
    {fs fs' : Entry} (h : writeFileE (pp ++ [k]) c fs = some fs') :
    TouchesOnly pp [k] fs fs' := by
  unfold writeFileE at h
  rw [splitLast_append] at h
  refine updateAt_touches h ?_
  intro es es' hf j hj
  rw [List.mem_singleton] at hj
  cases hl : lookupA es k with
  | none =>
    rw [hl] at hf
    simp only [Option.some.injEq] at hf
    subst hf
    exact lookupA_snoc_other es k j _ hj
  | some e0 =>
    rw [hl] at hf
    cases e0 with
    | dir d => simp at hf
    | file c0 =>
      simp only [Option.some.injEq] at hf
      subst hf
      exact lookupA_setA_other es k j _ hj

theorem mkdirE_touches {pp : List String} {k : String} {fs fs' : Entry}
    (h : mkdirE (pp ++ [k]) fs = some fs') :
    TouchesOnly pp [k] fs fs' := by
  unfold mkdirE at h
  rw [splitLast_append] at h
  refine updateAt_touches h ?_
  intro es es' hf j hj
  rw [List.mem_singleton] at hj
  by_cases hl : (lookupA es k).isSome
  · rw [if_pos hl] at hf; simp at hf
  · rw [if_neg hl] at hf
    simp only [Option.some.injEq] at hf
    subst hf
    exact lookupA_snoc_other es k j _ hj

theorem rmtreeE_touches {pp : List String} {k : String} {fs fs' : Entry}
    (h : rmtreeE (pp ++ [k]) fs = some fs') :
    TouchesOnly pp [k] fs fs' := by
  unfold rmtreeE at h
  rw [splitLast_append] at h
  refine updateAt_touches h ?_
  intro es es' hf j hj
  rw [List.mem_singleton] at hj
  cases hl : lookupA es k with
  | none => rw [hl] at hf; simp at hf
  | some e0 =>
    rw [hl] at hf
    cases e0 with
    | file c0 => simp at hf
    | dir d =>
      simp only [Option.some.injEq] at hf
      subst hf
      exact lookupA_eraseA_other es k j hj

/-- Transfer: a step confined below `p ++ [a]` is, seen from `p`, a step
confined to the entry `a`. -/
theorem TouchesOnly.up {p : List String} {a : String} {ks : List String} {fs fs' : Entry}
    (h : TouchesOnly (p ++ [a]) ks fs fs') : TouchesOnly p [a] fs fs' := by
  obtain ⟨f, u, anc, d⟩ := h
  refine ⟨?_, ?_, ?_, ?_⟩
  · intro q hq hq2
    refine f q ?_ ?_
    · intro hc
      rcases List.prefix_concat_iff.1 hc with rfl | hc2
      · exact hq2 (List.prefix_append p [a])
      · exact hq hc2
    · intro hc
      exact hq2 ((List.prefix_append p [a]).trans hc)
  · intro j rest hj
    rw [List.mem_singleton] at hj
    refine f (p ++ j :: rest) ?_ ?_
    · intro hc
      rw [List.prefix_append_right_inj] at hc
      rcases List.cons_prefix_cons.1 hc with ⟨rfl, _⟩
      exact hj rfl
    · intro hc
      rw [List.prefix_append_right_inj] at hc
      rcases List.cons_prefix_cons.1 hc with ⟨rfl, _⟩
      exact hj rfl
  · intro q es hq hne hes
    refine anc q es (hq.trans (List.prefix_append p [a])) ?_ hes
    intro hh
    subst hh
    have := hq.length_le
    simp at this
  · intro es hes
    obtain ⟨es', h1, _⟩ := anc p es (List.prefix_append p [a]) (by simp) hes
    exact ⟨es', h1⟩


theorem pj_ne (p : List String) (s : String) (hs : s ≠ "") : pj p s = p ++ [s] := by
  unfold pj
  rw [if_neg hs]

theorem pj_empty (p : List String) : pj p "" = p := rfl

theorem writeFileE_read {pp : List String} {k : String} {c : FileContent}
    {fs fs' : Entry} (h : writeFileE (pp ++ [k]) c fs = some fs') :
    readFileE (pp ++ [k]) fs' = some c := by
  obtain ⟨es, es', _, h2, h3, _⟩ := writeFileE_ok h
  have hl : lookupE (pp ++ [k]) fs' = some (.file c) := by
    rw [lookupE_append, h2]
    show lookupE [k] (Entry.dir es') = some (.file c)
    rw [lookupE_single, h3]
  unfold readFileE
  rw [hl]

namespace RegistryClient

theorem copyFile_ok {ext : ExtFS} {src : String} {dst : List String} {fs fs' : Entry}
    (h : copyFile ext src dst fs = .ok fs') :
    ∃ c, ext src = some c ∧ writeFileE dst c fs = some fs' := by
  unfold copyFile at h
  split at h
  · exact Except.noConfusion h
  · rename_i c heq
    split at h
    · rename_i st hw
      cases h
      exact ⟨c, heq, hw⟩
    · exact Except.noConfusion h

/-- Effect of `writeModuleBazel`: one file write at `<p>/MODULE.bazel`;
with no (truthy) override it writes the generated manifest text. -/
theorem writeModuleBazel_ok {ext : ExtFS} {m : Module} {p : List String}
    {nm vr : String} {fs fs' : Entry}
    (h : writeModuleBazel ext m p nm vr fs = .ok fs') :
    ∃ c, writeFileE (p ++ ["MODULE.bazel"]) c fs = some fs' ∧
      (pyTruthy m.module_dot_bazel = false →
        c = .text (moduleBazelText nm vr m.compatibility_level m.deps)) := by
  unfold writeModuleBazel at h
  simp only [pj_ne p "MODULE.bazel" (by decide)] at h
  split at h
  · rename_i ht
    obtain ⟨c, _, hw⟩ := copyFile_ok h
    refine ⟨c, hw, fun hf => ?_⟩
    rw [hf] at ht
    cases ht
  · split at h
    · rename_i st hw
      cases h
      exact ⟨_, hw, fun _ => rfl⟩
    · exact Except.noConfusion h

/-- Effect of `writePresubmit`: one file write at `<p>/presubmit.yml`;
with no (truthy) override it writes the generated three-platform
structure, each platform holding a `build_targets`/`test_targets` entry
only when the corresponding list is non-empty. -/
theorem writePresubmit_ok {ext : ExtFS} {m : Module} {p : List String} {fs fs' : Entry}
    (h : writePresubmit ext m p fs = .ok fs') :
    ∃ c, writeFileE (p ++ ["presubmit.yml"]) c fs = some fs' ∧
      (pyTruthy m.presubmit_yml = false →
        c = .jval (.obj [("platforms", .obj
          [("linux", .obj (presubmitPlatform m)),
           ("macos", .obj (presubmitPlatform m)),
           ("windows", .obj (presubmitPlatform m))])])) := by
  unfold writePresubmit at h
  simp only [pj_ne p "presubmit.yml" (by decide)] at h
  split at h
  · rename_i ht
    obtain ⟨c, _, hw⟩ := copyFile_ok h
    refine ⟨c, hw, fun hf => ?_⟩
    rw [hf] at ht
    cases ht
  · split at h
    · rename_i st hw
      cases h
      exact ⟨_, hw, fun _ => rfl⟩
    · exact Except.noConfusion h

/-- Effect of the patch-copy loop: all writes are confined to the
`patches` entry of the version directory. -/
theorem copyPatches_steps {ext : ExtFS} {p : List String} :
    ∀ (ps : List String) (fs : Entry) (r : Entry × List JVal),
    copyPatches ext (pj p "patches") ps fs = .ok r →
    TouchesOnly p ["patches"] fs r.1 ∧
    ∀ q j, p = q ++ [j] → UnderKey q j fs r.1
  | [], fs, r, h => by
    cases h
    exact ⟨TouchesOnly.refl p ["patches"] fs, fun q j _ => UnderKey.refl' q j fs⟩
  | s :: rest, fs, r, h => by
    unfold copyPatches at h
    split at h
    · exact Except.noConfusion h
    · rename_i st hc
      cases hr : copyPatches ext (pj p "patches") rest st with
      | error e => rw [hr] at h; exact Except.noConfusion h
      | ok r2 =>
        rcases r2 with ⟨st2, names⟩
        rw [hr] at h
        have h2 : Except.ok (ε := RegErr × Entry) (st2, JVal.str (pathName s) :: names) =
            .ok r := h
        cases h2
        obtain ⟨c, _, hw⟩ := copyFile_ok hc
        obtain ⟨ht2, hu2⟩ := copyPatches_steps rest st (st2, names) hr
        rw [pj_ne p "patches" (by decide)] at hw
        have honestep : TouchesOnly p ["patches"] fs st ∧
            ∀ q j, p = q ++ [j] → UnderKey q j fs st := by
          by_cases hname : pathName s = ""
          · rw [hname, pj_empty] at hw
            refine ⟨writeFileE_touches hw, fun q j hpq => ?_⟩
            subst hpq
            unfold writeFileE at hw
            rw [splitLast_append] at hw
            exact updateAt_underKey hw
          · rw [pj_ne _ _ hname] at hw
            refine ⟨(writeFileE_touches hw).up, fun q j hpq => ?_⟩
            subst hpq
            unfold writeFileE at hw
            rw [splitLast_append, List.append_assoc] at hw
            exact updateAt_underKey hw
        refine ⟨(honestep.1.trans ht2).mono ?_,
          fun q j hpq => (honestep.2 q j hpq).trans' (hu2 q j hpq)⟩
        intro x hx
        simp only [List.mem_append] at hx
        rcases hx with hx | hx <;> exact hx

/-- Effect of `preparePatches`: writes confined to the `patches` entry of
the version directory. -/
theorem preparePatches_steps {ext : ExtFS} {m : Module} {p : List String}
    {source : List (String × JVal)} {fs : Entry} {r : Entry × List (String × JVal)}
    (h : preparePatches ext m p source fs = .ok r) :
    TouchesOnly p ["patches"] fs r.1 ∧
    ∀ q j, p = q ++ [j] → UnderKey q j fs r.1 := by
  unfold preparePatches at h
  by_cases hps : m.patches.isEmpty = true
  · rw [if_pos hps] at h
    cases h
    exact ⟨TouchesOnly.refl p ["patches"] fs, fun q j _ => UnderKey.refl' q j fs⟩
  · rw [if_neg hps] at h
    have h0 : (match mkdirE (pj p "patches") fs with
      | Option.none => Except.error (RegErr.ioError, fs)
      | some st1 =>
        match copyPatches ext (pj p "patches") m.patches st1 with
        | Except.error e => Except.error e
        | Except.ok (st2, names) =>
          Except.ok (st2, source ++ [("patches", JVal.arr names)])) = Except.ok r := h
    cases hmk : mkdirE (pj p "patches") fs with
    | none => rw [hmk] at h0; exact Except.noConfusion h0
    | some st1 =>
      rw [hmk] at h0
      have h1 : (match copyPatches ext (pj p "patches") m.patches st1 with
        | Except.error e => Except.error e
        | Except.ok (st2, names) =>
          Except.ok (ε := RegErr × Entry)
            (st2, source ++ [("patches", JVal.arr names)])) = Except.ok r := h0
      cases hcp : copyPatches ext (pj p "patches") m.patches st1 with
      | error e => rw [hcp] at h1; exact Except.noConfusion h1
      | ok r2 =>
        rcases r2 with ⟨st2, names⟩
        rw [hcp] at h1
        have h2 : Except.ok (ε := RegErr × Entry)
            (st2, source ++ [("patches", JVal.arr names)]) = .ok r := h1
        cases h2
        obtain ⟨htc, huc⟩ := copyPatches_steps m.patches st1 (st2, names) hcp
        rw [pj_ne p "patches" (by decide)] at hmk
        refine ⟨((mkdirE_touches hmk).trans htc).mono ?_, ?_⟩
        · intro x hx
          simp only [List.mem_append] at hx
          rcases hx with hx | hx <;> exact hx
        · intro q j hpq
          refine UnderKey.trans' ?_ (huc q j hpq)
          subst hpq
          unfold mkdirE at hmk
          rw [splitLast_append] at hmk
          exact updateAt_underKey hmk

/-- Effect of `writeSourceJson`: writes confined to `patches` and
`source.json` inside the version directory. -/
theorem writeSourceJson_steps {ext : ExtFS} {m : Module} {p : List String}
    {fs fs' : Entry} (h : writeSourceJson ext m p fs = .ok fs') :
    TouchesOnly p ["patches", "source.json"] fs fs' ∧
    ∀ q j, p = q ++ [j] → UnderKey q j fs fs' := by
  unfold writeSourceJson at h
  cases hsrc : m.source? with
  | none => rw [hsrc] at h; exact Except.noConfusion h
  | some src =>
    rw [hsrc] at h
    have h1 : (match preparePatches ext m p (sourceDict src) fs with
      | Except.error e => Except.error e
      | Except.ok (st, source) =>
        match writeFileE (pj p "source.json") (FileContent.jval (JVal.obj source)) st with
        | some st' => Except.ok st'
        | Option.none => Except.error (RegErr.ioError, st)) = Except.ok fs' := h
    cases hwp : preparePatches ext m p (sourceDict src) fs with
    | error e => rw [hwp] at h1; exact Except.noConfusion h1
    | ok r =>
      rcases r with ⟨st, source2⟩
      rw [hwp] at h1
      have h2 : (match writeFileE (pj p "source.json")
          (FileContent.jval (JVal.obj source2)) st with
        | some st' => Except.ok st'
        | Option.none => Except.error (ε := RegErr × Entry) (RegErr.ioError, st)) =
          Except.ok fs' := h1
      obtain ⟨hmid1, hmid2⟩ := preparePatches_steps hwp
      cases hwf : writeFileE (pj p "source.json") (FileContent.jval (JVal.obj source2)) st with
      | none => rw [hwf] at h2; exact Except.noConfusion h2
      | some stf =>
        rw [hwf] at h2
        cases h2
        rw [pj_ne p "source.json" (by decide)] at hwf
        refine ⟨(hmid1.trans (writeFileE_touches hwf)).mono ?_, ?_⟩
        · intro x hx
          simp only [List.mem_append, List.mem_singleton] at hx
          rcases hx with rfl | rfl
          · exact List.mem_cons_self _ _
          · exact List.mem_cons_of_mem _ (List.mem_cons_self _ _)
        · intro q j hpq
          refine UnderKey.trans' (hmid2 q j hpq) ?_
          subst hpq
          unfold writeFileE at hwf
          rw [splitLast_append] at hwf
          exact updateAt_underKey hwf

/-- Effect of `metadataAddVersion`: read the metadata file at `mp`, check
it, and rewrite it with the version appended to the sorted
`versions` list. -/
theorem metadataAddVersion_ok {mp : List String} {vr : String} {fs fs' : Entry}
    (h : metadataAddVersion mp vr fs = .ok fs') :
    ∃ mf vs svs, readFileE mp fs = some (.jval (.obj mf)) ∧
      lookupA mf "versions" = some (.arr vs) ∧
      asStrings (vs ++ [.str vr]) = some svs ∧
      writeFileE mp
        (.jval (.obj (setA mf "versions" (.arr ((pySort svs).map .str))))) fs =
        some fs' := by
  unfold metadataAddVersion at h
  split at h <;> try exact Except.noConfusion h
  rename_i mf hread
  split at h <;> try exact Except.noConfusion h
  rename_i vs hvers
  split at h <;> try exact Except.noConfusion h
  rename_i svs hstr
  split at h
  · rename_i stf hwf
    cases h
    exact ⟨mf, vs, svs, hread, hvers, hstr, hwf⟩
  · exact Except.noConfusion h

/-- Inversion of a successful `add`: the descriptor carries a name and a
version, the duplicate guard did not fire, and the five mutation steps
all succeeded in order. -/
theorem add_ok_elim {fs : Entry} {ext : ExtFS} {m : Module} {fs' : Entry}
    (h : add fs ext m = .ok fs') :
    ∃ nm vr st1 st2 st3 st4,
      m.name = some nm ∧ m.version = some vr ∧
      contains fs nm (some vr) = false ∧
      mkdirE (pj (pj (pj [] "modules") nm) vr) fs = some st1 ∧
      writeModuleBazel ext m (pj (pj (pj [] "modules") nm) vr) nm vr st1 = .ok st2 ∧
      writeSourceJson ext m (pj (pj (pj [] "modules") nm) vr) st2 = .ok st3 ∧
      writePresubmit ext m (pj (pj (pj [] "modules") nm) vr) st3 = .ok st4 ∧
      metadataAddVersion (pj (pj (pj [] "modules") nm) "metadata.json") vr st4 = .ok fs' := by
  unfold add at h
  split at h
  · exact Except.noConfusion h
  · rename_i nm hn
    split at h
    · exact Except.noConfusion h
    · rename_i hcon
      split at h
      · exact Except.noConfusion h
      · rename_i vr hv
        have h0 : (match mkdirE (pj (pj (pj [] "modules") nm) vr) fs with
          | Option.none => Except.error (RegErr.ioError, fs)
          | some st1 =>
            match writeModuleBazel ext m (pj (pj (pj [] "modules") nm) vr) nm vr st1 with
            | Except.error e => Except.error e
            | Except.ok st2 =>
              match writeSourceJson ext m (pj (pj (pj [] "modules") nm) vr) st2 with
              | Except.error e => Except.error e
              | Except.ok st3 =>
                match writePresubmit ext m (pj (pj (pj [] "modules") nm) vr) st3 with
                | Except.error e => Except.error e
                | Except.ok st4 =>
                  metadataAddVersion (pj (pj (pj [] "modules") nm) "metadata.json") vr st4) =
            Except.ok fs' := h
        clear h
        split at h0
        · exact Except.noConfusion h0
        · rename_i st1 hmk
          split at h0
          · exact Except.noConfusion h0
          · rename_i st2 hmb
            split at h0
            · exact Except.noConfusion h0
            · rename_i st3 hsj
              split at h0
              · exact Except.noConfusion h0
              · rename_i st4 hps
                refine ⟨nm, vr, st1, st2, st3, st4, hn, hv, ?_, hmk, hmb, hsj, hps, h0⟩
                rw [hv] at hcon
                exact Bool.of_not_eq_true hcon

/-- The generated manifest, viewed as newline-separated lines: the five
header lines rendering name, version and compatibility level, a blank
line, then one `bazel_dep` line per dependency in descriptor order. -/
theorem moduleBazelText_lines (nm vr : String) (cl : PyScalar)
    (deps : List (String × String)) :
    moduleBazelText nm vr cl deps =
      pyJoin "\n" ["module(",
        "    name = \"" ++ nm ++ "\",",
        "    version = \"" ++ vr ++ "\",",
        "    compatibility_level = \"" ++ cl.render ++ "\",",
        ")"] ++ "\n\n" ++ pyJoin "\n" (deps.map depLine) := by
  unfold moduleBazelText
  apply String.ext
  simp only [pyJoin, String.data_append, List.append_assoc]
  rfl

theorem mkdirE_lookup {pp : List String} {k : String} {fs fs' : Entry}
    (h : mkdirE (pp ++ [k]) fs = some fs') :
    lookupE (pp ++ [k]) fs' = some (.dir []) := by
  obtain ⟨es, h1, h2, h3⟩ := mkdirE_ok h
  rw [lookupE_append, h3]
  show lookupE [k] (Entry.dir (es ++ [(k, Entry.dir [])])) = _
  rw [lookupE_single, lookupA_snoc_self es k _ h2]

theorem TouchesOnly.readFile {p : List String} {ks : List String} {fs fs' : Entry}
    (h : TouchesOnly p ks fs fs') (j : String) (rest : List String) (hj : j ∉ ks) :
    readFileE (p ++ j :: rest) fs' = readFileE (p ++ j :: rest) fs := by
  unfold readFileE
  rw [h.2.1 j rest hj]

end RegistryClient

/-! ## Claim C5 -/

/-- C5: for a descriptor with no manifest override, after a successful
`add` the version directory's `MODULE.bazel` holds the generated text:
five header lines rendering the module's own name, version and
compatibility level literally, a blank line, and one `bazel_dep`
declaration per `(depName, depVersion)` pair of the descriptor, in
descriptor order. -/
theorem claim_C5_generated_manifest (fs fs' : Entry) (ext : ExtFS) (m : Module)
    (nm vr : String) (hn : m.name = some nm) (hv : m.version = some vr)
    (hmb : m.module_dot_bazel = Option.none)
    (h : RegistryClient.add fs ext m = .ok fs') :
    readFileE (pj (pj (pj (pj [] "modules") nm) vr) "MODULE.bazel") fs' =
      some (.text (pyJoin "\n" ["module(",
        "    name = \"" ++ nm ++ "\",",
        "    version = \"" ++ vr ++ "\",",
        "    compatibility_level = \"" ++ m.compatibility_level.render ++ "\",",
        ")"] ++ "\n\n" ++ pyJoin "\n" (m.deps.map RegistryClient.depLine))) := by
  obtain ⟨nm0, vr0, st1, st2, st3, st4, hn0, hv0, hcon, hmk, hmb0, hsj, hps, hmeta⟩ :=
    RegistryClient.add_ok_elim h
  rw [hn] at hn0
  rw [hv] at hv0
  cases hn0
  cases hv0
  rw [pj_ne (pj (pj (pj [] "modules") nm) vr) "MODULE.bazel" (by decide),
    ← RegistryClient.moduleBazelText_lines]
  obtain ⟨c, hw, hcgen⟩ := RegistryClient.writeModuleBazel_ok hmb0
  have hcc : c = .text (RegistryClient.moduleBazelText nm vr m.compatibility_level m.deps) :=
    hcgen (by rw [hmb]; rfl)
  subst hcc
  have h2 := writeFileE_read hw
  obtain ⟨hts, _⟩ := RegistryClient.writeSourceJson_steps hsj
  obtain ⟨c2, hw2, _⟩ := RegistryClient.writePresubmit_ok hps
  have htp := writeFileE_touches hw2
  have h4 : readFileE (pj (pj (pj [] "modules") nm) vr ++ ["MODULE.bazel"]) st4 =
      some (.text (RegistryClient.moduleBazelText nm vr m.compatibility_level m.deps)) := by
    rw [RegistryClient.TouchesOnly.readFile htp "MODULE.bazel" [] (by decide),
      RegistryClient.TouchesOnly.readFile hts "MODULE.bazel" [] (by decide)]
    exact h2
  obtain ⟨mf, vs, svs, hread, hvers, hstr, hwrite⟩ :=
    RegistryClient.metadataAddVersion_ok hmeta
  rw [pj_ne (pj (pj [] "modules") nm) "metadata.json" (by decide)] at hwrite hread
  have htm := writeFileE_touches hwrite
  by_cases hvre : vr = ""
  · subst hvre
    rw [pj_empty] at h4 ⊢
    rw [RegistryClient.TouchesOnly.readFile htm "MODULE.bazel" [] (by decide)]
    exact h4
  · rw [pj_ne (pj (pj [] "modules") nm) vr hvre] at h4 ⊢
    by_cases hvrm : vr = "metadata.json"
    · exfalso
      subst hvrm
      obtain ⟨es3, es4, _, hp4, _⟩ := writeFileE_ok hw2
      rw [pj_ne (pj (pj [] "modules") nm) "metadata.json" (by decide)] at hp4
      unfold readFileE at hread
      rw [hp4] at hread
      simp at hread
    · have hpres := RegistryClient.TouchesOnly.readFile htm vr ["MODULE.bazel"] (by simp [hvrm])
      rw [List.append_assoc]
      rw [List.append_assoc] at h4
      exact hpres.trans h4

/-- Witness for C5: on the demonstration registry (dependencies
`[("foo","1.0"), ("bar","2.0")]`, no override), the generated manifest is
the literal header followed by the two `bazel_dep` lines in that order. -/
theorem claim_C5_generated_manifest_witness :
    readFileE (pj (pj (pj (pj [] "modules") "demo") "1.0") "MODULE.bazel") demoRegistry2 =
      some (.text (pyJoin "\n" ["module(",
        "    name = \"" ++ "demo" ++ "\",",
        "    version = \"" ++ "1.0" ++ "\",",
        "    compatibility_level = \"" ++ demoModule.compatibility_level.render ++ "\",",
        ")"] ++ "\n\n" ++ pyJoin "\n" (demoModule.deps.map RegistryClient.depLine))) ∧
    pyJoin "\n" ["module(",
        "    name = \"" ++ "demo" ++ "\",",
        "    version = \"" ++ "1.0" ++ "\",",
        "    compatibility_level = \"" ++ demoModule.compatibility_level.render ++ "\",",
        ")"] ++ "\n\n" ++ pyJoin "\n" (demoModule.deps.map RegistryClient.depLine) =
      "module(\n    name = \"demo\",\n    version = \"1.0\",\n    compatibility_level = \"1\",\n)\n\nbazel_dep(name = \"foo\", version = \"1.0\")\nbazel_dep(name = \"bar\", version = \"2.0\")" :=
  ⟨claim_C5_generated_manifest demoRegistry1 demoRegistry2 demoExt demoModule
    "demo" "1.0" rfl rfl rfl rfl, rfl⟩

/-! ## Claim C6 -/

/-- C6: for a descriptor with no presubmit override, after a successful
`add` the version directory's `presubmit.yml` holds a structure with
exactly the three platform keys `linux`, `macos` and `windows`, each
holding an identical copy of the generated target entry, in which an
empty `build_targets`/`test_targets` list produces no key at all. -/
theorem claim_C6_generated_presubmit (fs fs' : Entry) (ext : ExtFS) (m : Module)
    (nm vr : String) (hn : m.name = some nm) (hv : m.version = some vr)
    (hpy : m.presubmit_yml = Option.none)
    (h : RegistryClient.add fs ext m = .ok fs') :
    readFileE (pj (pj (pj (pj [] "modules") nm) vr) "presubmit.yml") fs' =
      some (.jval (.obj [("platforms", .obj
        [("linux", .obj (RegistryClient.presubmitPlatform m)),
         ("macos", .obj (RegistryClient.presubmitPlatform m)),
         ("windows", .obj (RegistryClient.presubmitPlatform m))])])) ∧
    (m.build_targets = [] →
      lookupA (RegistryClient.presubmitPlatform m) "build_targets" = none) ∧
    (m.build_targets ≠ [] →
      lookupA (RegistryClient.presubmitPlatform m) "build_targets" =
        some (JVal.arr (m.build_targets.map .str))) ∧
    (m.test_targets = [] →
      lookupA (RegistryClient.presubmitPlatform m) "test_targets" = none) ∧
    (m.test_targets ≠ [] →
      lookupA (RegistryClient.presubmitPlatform m) "test_targets" =
        some (JVal.arr (m.test_targets.map .str))) := by
  obtain ⟨nm0, vr0, st1, st2, st3, st4, hn0, hv0, hcon, hmk, hmb0, hsj, hps, hmeta⟩ :=
    RegistryClient.add_ok_elim h
  rw [hn] at hn0
  rw [hv] at hv0
  cases hn0
  cases hv0
  refine ⟨?_, ?_, ?_, ?_, ?_⟩
  case _ =>
    rw [pj_ne (pj (pj (pj [] "modules") nm) vr) "presubmit.yml" (by decide)]
    obtain ⟨c2, hw2, hcgen⟩ := RegistryClient.writePresubmit_ok hps
    have hcc := hcgen (by rw [hpy]; rfl)
    subst hcc
    have h2 := writeFileE_read hw2
    obtain ⟨mf, vs, svs, hread, hvers, hstr, hwrite⟩ :=
      RegistryClient.metadataAddVersion_ok hmeta
    rw [pj_ne (pj (pj [] "modules") nm) "metadata.json" (by decide)] at hwrite hread
    have htm := writeFileE_touches hwrite
    by_cases hvre : vr = ""
    · subst hvre
      rw [pj_empty] at h2 ⊢
      rw [RegistryClient.TouchesOnly.readFile htm "presubmit.yml" [] (by decide)]
      exact h2
    · rw [pj_ne (pj (pj [] "modules") nm) vr hvre] at h2 ⊢
      by_cases hvrm : vr = "metadata.json"
      · exfalso
        subst hvrm
        obtain ⟨es3, es4, _, hp4, _⟩ := writeFileE_ok hw2
        rw [pj_ne (pj (pj [] "modules") nm) "metadata.json" (by decide)] at hp4
        unfold readFileE at hread
        rw [hp4] at hread
        simp at hread
      · have hpres := RegistryClient.TouchesOnly.readFile htm vr ["presubmit.yml"]
          (by simp [hvrm])
        rw [List.append_assoc]
        rw [List.append_assoc] at h2
        exact hpres.trans h2
  case _ =>
    intro hbt
    unfold RegistryClient.presubmitPlatform
    rw [hbt]
    by_cases ht : m.test_targets.isEmpty = true
    · simp [ht, lookupA]
    · simp [ht, lookupA]
  case _ =>
    intro hbt
    unfold RegistryClient.presubmitPlatform
    cases hb : m.build_targets with
    | nil => exact absurd hb hbt
    | cons a l =>
      simp [lookupA]
  case _ =>
    intro htt
    unfold RegistryClient.presubmitPlatform
    rw [htt]
    by_cases hb : m.build_targets.isEmpty = true
    · simp [hb, lookupA]
    · simp [hb, lookupA]
  case _ =>
    intro htt
    unfold RegistryClient.presubmitPlatform
    cases ht : m.test_targets with
    | nil => exact absurd ht htt
    | cons a l =>
      by_cases hb : m.build_targets.isEmpty = true
      · simp [hb, lookupA]
      · simp [hb, lookupA]

/-- Witness for C6: on the demonstration registry
(`build_targets = ["//:lib"]`, `test_targets = []`, no override), all
three platforms carry `build_targets: ["//:lib"]` and no `test_targets`
key. -/
theorem claim_C6_generated_presubmit_witness :
    readFileE (pj (pj (pj (pj [] "modules") "demo") "1.0") "presubmit.yml") demoRegistry2 =
      some (.jval (.obj [("platforms", .obj
        [("linux", .obj [("build_targets", JVal.arr [.str "//:lib"])]),
         ("macos", .obj [("build_targets", JVal.arr [.str "//:lib"])]),
         ("windows", .obj [("build_targets", JVal.arr [.str "//:lib"])])])])) ∧
    lookupA (RegistryClient.presubmitPlatform demoModule) "test_targets" = none ∧
    lookupA (RegistryClient.presubmitPlatform demoModule) "build_targets" =
      some (JVal.arr [.str "//:lib"]) := by
  obtain ⟨h1, h2, h3, h4, h5⟩ := claim_C6_generated_presubmit demoRegistry1 demoRegistry2
    demoExt demoModule "demo" "1.0" rfl rfl rfl rfl
  refine ⟨?_, h4 rfl, h3 (by decide)⟩
  rw [h1]
  rfl

/-! ## The registry invariant (claims C3 and C7)

A well-formed registry has a `modules` directory whose entries are module
directories; each module directory holds a `metadata.json` file whose
`versions` array lists exactly the version subdirectories present, in
sorted order. -/

/-- The version subdirectories present in a module directory listing. -/
def dirKeys (es : List (String × Entry)) : List String :=
  es.filterMap fun kv => match kv.2 with | .dir _ => some kv.1 | .file _ => none

/-- Well-formedness of one module directory: duplicate-free entry names,
and a `metadata.json` whose `versions` array is the sorted list of the
version subdirectories actually present. -/
def ModuleDirInv (es : List (String × Entry)) : Prop :=
  (es.map Prod.fst).Nodup ∧
  ∃ mf, lookupA es "metadata.json" = some (.file (.jval (.obj mf))) ∧
    lookupA mf "versions" = some (.arr ((pySort (dirKeys es)).map .str))

/-- Well-formedness of the whole registry: the root and the `modules`
directory have duplicate-free listings, and every entry of `modules` is a
module directory satisfying `ModuleDirInv`. -/
def RegInv (fs : Entry) : Prop :=
  (∃ root, fs = .dir root ∧ (root.map Prod.fst).Nodup) ∧
  (∃ M, lookupE ["modules"] fs = some (.dir M) ∧ (M.map Prod.fst).Nodup) ∧
  ∀ nm e, lookupE ["modules", nm] fs = some e → ∃ es, e = .dir es ∧ ModuleDirInv es

theorem setA_eq_self {α : Type} :
    ∀ (es : List (String × α)) (k : String) (v : α),
      lookupA es k = some v → setA es k v = es
  | [], _, _, h => by simp [lookupA] at h
  | (k0, v0) :: es, k, v, h => by
    by_cases hk : k0 = k
    · subst hk
      simp only [lookupA, if_true, eq_self_iff_true, Option.some.injEq] at h
      simp [setA, h]
    · simp only [lookupA, if_neg hk] at h
      simp only [setA, if_neg hk, List.cons.injEq, true_and]
      exact setA_eq_self es k v h

theorem dirKeys_snoc_dir (es : List (String × Entry)) (k : String)
    (d : List (String × Entry)) :
    dirKeys (es ++ [(k, .dir d)]) = dirKeys es ++ [k] := by
  unfold dirKeys
  rw [List.filterMap_append]
  rfl

theorem dirKeys_snoc_file (es : List (String × Entry)) (k : String) (c : FileContent) :
    dirKeys (es ++ [(k, .file c)]) = dirKeys es := by
  unfold dirKeys
  rw [List.filterMap_append]
  simp

theorem dirKeys_setA_dir :
    ∀ (es : List (String × Entry)) (k : String) (d0 d : List (String × Entry)),
      lookupA es k = some (.dir d0) → dirKeys (setA es k (.dir d)) = dirKeys es
  | [], _, _, _, h => by simp [lookupA] at h
  | (k0, v0) :: es, k, d0, d, h => by
    by_cases hk : k0 = k
    · subst hk
      simp only [lookupA, if_true, eq_self_iff_true, Option.some.injEq] at h
      subst h
      simp [setA, dirKeys]
    · simp only [lookupA, if_neg hk] at h
      simp only [setA, if_neg hk]
      have ih := dirKeys_setA_dir es k d0 d h
      unfold dirKeys at ih ⊢
      simp only [List.filterMap_cons, ih]

theorem dirKeys_setA_file :
    ∀ (es : List (String × Entry)) (k : String) (c0 c : FileContent),
      lookupA es k = some (.file c0) → dirKeys (setA es k (.file c)) = dirKeys es
  | [], _, _, _, h => by simp [lookupA] at h
  | (k0, v0) :: es, k, c0, c, h => by
    by_cases hk : k0 = k
    · subst hk
      simp only [lookupA, if_true, eq_self_iff_true, Option.some.injEq] at h
      subst h
      simp [setA, dirKeys]
    · simp only [lookupA, if_neg hk] at h
      simp only [setA, if_neg hk]
      have ih := dirKeys_setA_file es k c0 c h
      unfold dirKeys at ih ⊢
      simp only [List.filterMap_cons, ih]

theorem dirKeys_eraseA :
    ∀ (es : List (String × Entry)) (k : String) (d : List (String × Entry)),
      lookupA es k = some (.dir d) → (es.map Prod.fst).Nodup →
      dirKeys (eraseA es k) = (dirKeys es).erase k
  | [], _, _, h, _ => by simp [lookupA] at h
  | (k0, v0) :: es, k, d, h, hnd => by
    rw [List.map_cons, List.nodup_cons] at hnd
    by_cases hk : k0 = k
    · subst hk
      simp only [lookupA, if_true, eq_self_iff_true, Option.some.injEq] at h
      subst h
      rw [eraseA, if_pos rfl]
      unfold dirKeys
      simp only [List.filterMap_cons]
      rw [List.erase_cons_head]
    · simp only [lookupA, if_neg hk] at h
      rw [eraseA, if_neg hk]
      have ih := dirKeys_eraseA es k d h hnd.2
      unfold dirKeys at ih ⊢
      cases v0 with
      | file c =>
        simp only [List.filterMap_cons, ih]
      | dir d0 =>
        simp only [List.filterMap_cons]
        rw [List.erase_cons_tail]
        · rw [ih]
        · simp [hk]

/-- `dirKeys` names are a sub-collection of the entry names. -/
theorem dirKeys_sublist (es : List (String × Entry)) :
    (dirKeys es).Sublist (es.map Prod.fst) := by
  induction es with
  | nil => exact List.Sublist.refl _
  | cons kv es ih =>
    rcases kv with ⟨k, v⟩
    unfold dirKeys at ih ⊢
    rw [List.filterMap_cons, List.map_cons]
    cases v with
    | file c => exact ih.cons _
    | dir d => exact ih.cons₂ _

theorem asStrings_map_str : ∀ xs : List String,
    RegistryClient.asStrings (xs.map .str) = some xs
  | [] => rfl
  | x :: xs => by
    simp [RegistryClient.asStrings, asStrings_map_str xs]

theorem asStrings_snoc : ∀ (vs : List JVal) (v : String) (svs : List String),
    RegistryClient.asStrings vs = some svs →
    RegistryClient.asStrings (vs ++ [.str v]) = some (svs ++ [v])
  | [], v, svs, h => by
    cases h
    rfl
  | .str s :: vs, v, svs, h => by
    simp only [RegistryClient.asStrings, Option.map_eq_some'] at h
    obtain ⟨svs0, h0, rfl⟩ := h
    simp only [List.cons_append, RegistryClient.asStrings, List.append_eq,
      asStrings_snoc vs v svs0 h0, Option.map_some']
  | .null :: vs, v, svs, h => by simp [RegistryClient.asStrings] at h
  | .int n :: vs, v, svs, h => by simp [RegistryClient.asStrings] at h
  | .arr xs :: vs, v, svs, h => by simp [RegistryClient.asStrings] at h
  | .obj fs :: vs, v, svs, h => by simp [RegistryClient.asStrings] at h

/-! ## Forward construction of filesystem operations -/

theorem updateAt_build : ∀ (pp : List String)
    (f : List (String × Entry) → Option (List (String × Entry))) (fs : Entry)
    (es es' : List (String × Entry)),
    lookupE pp fs = some (.dir es) → f es = some es' →
    ∃ fs', updateAt pp f fs = some fs' ∧ lookupE pp fs' = some (.dir es')
  | [], f, fs, es, es', hl, hf => by
    have h0 : some fs = some (Entry.dir es) := hl
    have h1 : fs = Entry.dir es := by injection h0
    subst h1
    exact ⟨.dir es', by simp [updateAt, hf], rfl⟩
  | k :: ks, f, fs, es, es', hl, hf => by
    cases fs with
    | file c => simp [lookupE] at hl
    | dir d =>
      simp only [lookupE] at hl
      cases hle : lookupA d k with
      | none => rw [hle] at hl; simp at hl
      | some e =>
        rw [hle] at hl
        have hl2 : lookupE ks e = some (.dir es) := hl
        obtain ⟨e', h1, h2⟩ := updateAt_build ks f e es es' hl2 hf
        refine ⟨.dir (setA d k e'), ?_, ?_⟩
        · simp [updateAt, hle, h1]
        · simp only [lookupE, lookupA_setA_self d k e' e hle]
          exact h2

theorem rmtreeE_build {pp : List String} {k : String} {fs : Entry}
    {es : List (String × Entry)} {d : List (String × Entry)}
    (hl : lookupE pp fs = some (.dir es)) (hk : lookupA es k = some (.dir d)) :
    ∃ fs', rmtreeE (pp ++ [k]) fs = some fs' ∧
      lookupE pp fs' = some (.dir (eraseA es k)) := by
  unfold rmtreeE
  rw [splitLast_append]
  exact updateAt_build pp _ fs es (eraseA es k) hl (by rw [hk])

theorem writeFileE_build_over {pp : List String} {k : String} {c0 c : FileContent}
    {fs : Entry} {es : List (String × Entry)}
    (hl : lookupE pp fs = some (.dir es)) (hk : lookupA es k = some (.file c0)) :
    ∃ fs', writeFileE (pp ++ [k]) c fs = some fs' ∧
      lookupE pp fs' = some (.dir (setA es k (.file c))) := by
  unfold writeFileE
  rw [splitLast_append]
  exact updateAt_build pp _ fs es (setA es k (.file c)) hl (by rw [hk])

theorem not_prefix_of_head_ne {a b : String} {l l' : List String} (h : a ≠ b) :
    ¬ (a :: l) <+: (b :: l') := by
  rintro ⟨t, ht⟩
  rw [List.cons_append, List.cons.injEq] at ht
  exact h ht.1

theorem not_prefix_of_second_ne {a b c : String} {l l' : List String} (h : b ≠ c) :
    ¬ (a :: b :: l) <+: (a :: c :: l') := by
  rintro ⟨t, ht⟩
  simp only [List.cons_append, List.cons.injEq] at ht
  exact h ht.2.1

/-- The three artifact-writing steps of `add` taken together: all
mutations confined to the four artifact entries of the version directory,
and, from one level up, a step under the version-directory key. -/
theorem addArtifacts_steps {ext : ExtFS} {m : Module} {p : List String}
    {nm vr : String} {st1 st2 st3 st4 : Entry}
    (hmb : RegistryClient.writeModuleBazel ext m p nm vr st1 = .ok st2)
    (hsj : RegistryClient.writeSourceJson ext m p st2 = .ok st3)
    (hps : RegistryClient.writePresubmit ext m p st3 = .ok st4) :
    TouchesOnly p ["MODULE.bazel", "patches", "source.json", "presubmit.yml"] st1 st4 ∧
    ∀ q j, p = q ++ [j] → UnderKey q j st1 st4 := by
  obtain ⟨c1, hw1, _⟩ := RegistryClient.writeModuleBazel_ok hmb
  obtain ⟨ht2, hu2⟩ := RegistryClient.writeSourceJson_steps hsj
  obtain ⟨c3, hw3, _⟩ := RegistryClient.writePresubmit_ok hps
  have t1 := writeFileE_touches hw1
  have t3 := writeFileE_touches hw3
  constructor
  · refine ((t1.trans ht2).trans t3).mono ?_
    intro x hx
    simp only [List.mem_append, List.mem_cons, List.not_mem_nil, or_false] at hx
    rcases hx with (rfl | rfl | rfl) | rfl <;> decide
  · intro q j hpq
    subst hpq
    have u1 : UnderKey q j st1 st2 := by
      unfold writeFileE at hw1
      rw [splitLast_append] at hw1
      exact updateAt_underKey hw1
    have u3 : UnderKey q j st3 st4 := by
      unfold writeFileE at hw3
      rw [splitLast_append] at hw3
      exact updateAt_underKey hw3
    exact (u1.trans' (hu2 q j rfl)).trans' u3

/-- Full inversion of a successful `add` on a well-formed registry: the
descriptor names an existing module directory, the version was fresh, and
the new state holds the fresh version directory (possibly filled by the
artifact writes) plus the rewritten metadata, with every path outside the
module directory untouched and all ancestor listings preserved. -/
theorem add_inv {fs fs' : Entry} {ext : ExtFS} {m : Module}
    (hinv : RegInv fs) (h : RegistryClient.add fs ext m = .ok fs') :
    ∃ nm vr ME0 mf vd,
      m.name = some nm ∧ m.version = some vr ∧ nm ≠ "" ∧ vr ≠ "" ∧
      vr ≠ "metadata.json" ∧
      lookupE ["modules", nm] fs = some (.dir ME0) ∧
      lookupA ME0 vr = none ∧
      lookupA ME0 "metadata.json" = some (.file (.jval (.obj mf))) ∧
      lookupA mf "versions" = some (.arr ((pySort (dirKeys ME0)).map .str)) ∧
      (∀ q, ¬ q <+: ["modules", nm] → ¬ ["modules", nm] <+: q →
        lookupE q fs' = lookupE q fs) ∧
      (∀ q es, q <+: ["modules", nm] → q ≠ ["modules", nm] →
        lookupE q fs = some (.dir es) →
        ∃ es', lookupE q fs' = some (.dir es') ∧
          es'.map Prod.fst = es.map Prod.fst) ∧
      lookupE ["modules", nm] fs' = some (.dir
        (setA (setA (ME0 ++ [(vr, Entry.dir [])]) vr (.dir vd)) "metadata.json"
          (.file (.jval (.obj (setA mf "versions"
            (.arr ((pySort (dirKeys ME0 ++ [vr])).map .str)))))))) := by
  obtain ⟨nm, vr, st1, st2, st3, st4, hn, hv, hcon, hmk, hmb, hsj, hps, hmeta⟩ :=
    RegistryClient.add_ok_elim h
  obtain ⟨hroot, hmods, hMInv⟩ := hinv
  obtain ⟨M, hM, hMnd⟩ := hmods
  by_cases hnm : nm = ""
  · subst hnm
    rw [pj_empty] at hmk hmb hsj hps hmeta
    by_cases hvr : vr = ""
    · subst hvr
      rw [pj_empty] at hmk
      have hmk2 : mkdirE ([] ++ ["modules"]) fs = some st1 := hmk
      obtain ⟨es, h1, h2, h3⟩ := mkdirE_ok hmk2
      have h0 : some fs = some (Entry.dir es) := h1
      have h0' : fs = Entry.dir es := by injection h0
      subst h0'
      rw [lookupE_single "modules" es, h2] at hM
      exact Option.noConfusion hM
    · rw [pj_ne _ _ hvr] at hmk hmb hsj hps
      rw [pj_ne _ _ (show ("metadata.json" : String) ≠ "" by decide)] at hmeta
      obtain ⟨mf', vs, svs, hread, hvers, hstr, hwf⟩ :=
        RegistryClient.metadataAddVersion_ok hmeta
      obtain ⟨hT, hU⟩ := addArtifacts_steps hmb hsj hps
      by_cases hvm : vr = "metadata.json"
      · subst hvm
        have hdir1 : lookupE (pj [] "modules" ++ ["metadata.json"]) st1 =
            some (.dir []) := RegistryClient.mkdirE_lookup hmk
        obtain ⟨es4, hes4⟩ := hT.2.2.2 [] hdir1
        unfold readFileE at hread
        rw [hes4] at hread
        simp at hread
      · have hframe : lookupE (pj [] "modules" ++ ["metadata.json"]) st4 =
            lookupE (pj [] "modules" ++ ["metadata.json"]) st1 :=
          hT.1 _ (not_prefix_of_second_ne (fun hh => hvm hh.symm))
            (not_prefix_of_second_ne hvm)
        have hmkT := mkdirE_touches hmk
        have hframe2 : lookupE (pj [] "modules" ++ "metadata.json" :: []) st1 =
            lookupE (pj [] "modules" ++ "metadata.json" :: []) fs :=
          hmkT.2.1 "metadata.json" []
            (by rw [List.mem_singleton]; exact fun hh => hvm hh.symm)
        unfold readFileE at hread
        rw [hframe] at hread
        rw [show (pj [] "modules" ++ ["metadata.json"] : List String) =
          pj [] "modules" ++ "metadata.json" :: [] from rfl] at hread
        rw [hframe2] at hread
        cases hlk : lookupE (pj [] "modules" ++ "metadata.json" :: []) fs with
        | none => rw [hlk] at hread; simp at hread
        | some e =>
          have hlk2 : lookupE ["modules", "metadata.json"] fs = some e := hlk
          obtain ⟨es2, rfl, _⟩ := hMInv "metadata.json" e hlk2
          rw [hlk] at hread
          simp at hread
  · rw [pj_ne _ _ hnm] at hmk hmb hsj hps hmeta
    rw [pj_ne _ _ (show ("metadata.json" : String) ≠ "" by decide)] at hmeta
    by_cases hvr : vr = ""
    · subst hvr
      rw [pj_empty] at hmk hmb hsj hps
      obtain ⟨mf', vs, svs, hread, hvers, hstr, hwf⟩ :=
        RegistryClient.metadataAddVersion_ok hmeta
      obtain ⟨hT, hU⟩ := addArtifacts_steps hmb hsj hps
      have hdir1 : lookupE (pj [] "modules" ++ [nm]) st1 = some (.dir []) :=
        RegistryClient.mkdirE_lookup hmk
      have hframe : lookupE ((pj [] "modules" ++ [nm]) ++ "metadata.json" :: []) st4 =
          lookupE ((pj [] "modules" ++ [nm]) ++ "metadata.json" :: []) st1 :=
        hT.2.1 "metadata.json" [] (by decide)
      unfold readFileE at hread
      rw [show ((pj [] "modules" ++ [nm]) ++ ["metadata.json"] : List String) =
        (pj [] "modules" ++ [nm]) ++ "metadata.json" :: [] from rfl] at hread
      rw [hframe, lookupE_append, hdir1] at hread
      simp [lookupE_single, lookupA] at hread
    · rw [pj_ne _ _ hvr] at hmk hmb hsj hps
      obtain ⟨ME0, hME0, hfresh, hst1⟩ := mkdirE_ok hmk
      have hME0' : lookupE ["modules", nm] fs = some (.dir ME0) := hME0
      obtain ⟨ME0', heq, hMDI⟩ := hMInv nm (.dir ME0) hME0'
      have heq' : ME0 = ME0' := by injection heq
      subst heq'
      obtain ⟨hnd0, mf, hmf, hvrs⟩ := hMDI
      have hvm : vr ≠ "metadata.json" := by
        intro hh
        rw [hh, hmf] at hfresh
        exact Option.noConfusion hfresh
      obtain ⟨hT, hU⟩ := addArtifacts_steps hmb hsj hps
      have hUK : UnderKey (pj [] "modules" ++ [nm]) vr st1 st4 := hU _ vr rfl
      have hvrME1 : lookupA (ME0 ++ [(vr, Entry.dir [])]) vr = some (.dir []) :=
        lookupA_snoc_self ME0 vr _ hfresh
      obtain ⟨vd, hst4⟩ : ∃ vd, lookupE (pj [] "modules" ++ [nm]) st4 =
          some (.dir (setA (ME0 ++ [(vr, Entry.dir [])]) vr (.dir vd))) := by
        rcases hUK _ hst1 with h4 | ⟨d, d', hd, h4⟩
        · exact ⟨[], by rw [setA_eq_self _ vr _ hvrME1]; exact h4⟩
        · exact ⟨d', h4⟩
      obtain ⟨mf', vs, svs, hread, hvers, hstr, hwf⟩ :=
        RegistryClient.metadataAddVersion_ok hmeta
      have hmfME4 : lookupA (setA (ME0 ++ [(vr, Entry.dir [])]) vr (.dir vd))
          "metadata.json" = some (.file (.jval (.obj mf))) := by
        rw [lookupA_setA_other _ vr _ _ (fun hh => hvm hh.symm),
          lookupA_snoc_other ME0 vr _ _ (fun hh => hvm hh.symm)]
        exact hmf
      have hlk4 : lookupE ((pj [] "modules" ++ [nm]) ++ ["metadata.json"]) st4 =
          some (.file (.jval (.obj mf))) := by
        rw [lookupE_append, hst4]
        show lookupE ["metadata.json"] (Entry.dir _) = _
        rw [lookupE_single, hmfME4]
      unfold readFileE at hread
      rw [hlk4] at hread
      have hread' : some (FileContent.jval (JVal.obj mf)) =
          some (FileContent.jval (JVal.obj mf')) := hread
      simp only [Option.some.injEq, FileContent.jval.injEq, JVal.obj.injEq] at hread'
      subst hread'
      rw [hvrs] at hvers
      have hvs : vs = (pySort (dirKeys ME0)).map .str := by
        have := hvers.symm
        simp only [Option.some.injEq, JVal.arr.injEq] at this
        exact this
      subst hvs
      have hsv : RegistryClient.asStrings
          ((pySort (dirKeys ME0)).map JVal.str ++ [.str vr]) =
          some (pySort (dirKeys ME0) ++ [vr]) :=
        asStrings_snoc _ vr _ (asStrings_map_str (pySort (dirKeys ME0)))
      rw [hsv] at hstr
      have hsvs : svs = pySort (dirKeys ME0) ++ [vr] := by
        have := hstr
        simp only [Option.some.injEq] at this
        exact this.symm
      subst hsvs
      rw [pySort_sorted_append] at hwf
      obtain ⟨es, es', hE1, hE2, hE3, hE4, hE5, hE6, hE7, hE8⟩ := writeFileE_ok hwf
      have hes : es = setA (ME0 ++ [(vr, Entry.dir [])]) vr (.dir vd) := by
        rw [hst4] at hE1
        have := hE1
        simp only [Option.some.injEq, Entry.dir.injEq] at this
        exact this.symm
      subst hes
      have hes' : es' = setA (setA (ME0 ++ [(vr, Entry.dir [])]) vr (.dir vd))
          "metadata.json" (.file (.jval (.obj (setA mf "versions"
            (.arr ((pySort (dirKeys ME0 ++ [vr])).map .str)))))) :=
        hE7 _ hmfME4
      subst hes'
      have hmkT := mkdirE_touches hmk
      have hwfT := writeFileE_touches hwf
      have hTot := (hmkT.trans hT.up).trans hwfT
      exact ⟨nm, vr, ME0, mf, vd, hn, hv, hnm, hvr, hvm, hME0', hfresh, hmf, hvrs,
        fun q hq1 hq2 => hTot.1 q hq1 hq2,
        fun q es2 hq hne hes2 => hTot.2.2.1 q es2 hq hne hes2,
        hE2⟩

/-- A successful `add` preserves the registry invariant. -/
theorem RegInv_add {fs fs' : Entry} {ext : ExtFS} {m : Module}
    (hinv : RegInv fs) (h : RegistryClient.add fs ext m = .ok fs') : RegInv fs' := by
  obtain ⟨nm, vr, ME0, mf, vd, hn, hv, hnm, hvr, hvm, hME0, hfresh, hmf, hvrs,
    hframe, hanc, hfin⟩ := add_inv hinv h
  obtain ⟨⟨root, hrooteq, hrootnd⟩, ⟨M, hM, hMnd⟩, hMInv⟩ := hinv
  obtain ⟨ME0', heq0, hMDI0⟩ := hMInv nm (.dir ME0) hME0
  have heq0' : ME0 = ME0' := by injection heq0
  subst heq0'
  obtain ⟨hnd0, mf0, hmf0, hvrs0⟩ := hMDI0
  have hvrME1 : lookupA (ME0 ++ [(vr, Entry.dir [])]) vr = some (.dir []) :=
    lookupA_snoc_self ME0 vr _ hfresh
  have hmfME4 : lookupA (setA (ME0 ++ [(vr, Entry.dir [])]) vr (.dir vd))
      "metadata.json" = some (.file (.jval (.obj mf))) := by
    rw [lookupA_setA_other _ vr _ _ (fun hh => hvm hh.symm),
      lookupA_snoc_other ME0 vr _ _ (fun hh => hvm hh.symm)]
    exact hmf
  refine ⟨?_, ?_, ?_⟩
  · obtain ⟨root', hr1, hr2⟩ := hanc [] root (by simp) (by simp) (by rw [hrooteq]; rfl)
    have h0 : some fs' = some (Entry.dir root') := hr1
    have hbe : fs' = Entry.dir root' := by injection h0
    exact ⟨root', hbe, by rw [hr2]; exact hrootnd⟩
  · obtain ⟨M', hM1, hM2⟩ := hanc ["modules"] M ⟨[nm], rfl⟩ (by simp) hM
    exact ⟨M', hM1, by rw [hM2]; exact hMnd⟩
  · intro nm' e' hlk
    by_cases hnn : nm' = nm
    · subst hnn
      rw [hfin] at hlk
      have hlk2 : some (Entry.dir
          (setA (setA (ME0 ++ [(vr, Entry.dir [])]) vr (.dir vd)) "metadata.json"
            (.file (.jval (.obj (setA mf "versions"
              (.arr ((pySort (dirKeys ME0 ++ [vr])).map .str)))))))) = some e' := hlk
      have he' : e' = Entry.dir
          (setA (setA (ME0 ++ [(vr, Entry.dir [])]) vr (.dir vd)) "metadata.json"
            (.file (.jval (.obj (setA mf "versions"
              (.arr ((pySort (dirKeys ME0 ++ [vr])).map .str))))))) := by
        injection hlk2 with h2
        exact h2.symm
      subst he'
      refine ⟨_, rfl, ?_, ?_⟩
      · rw [setA_map_fst, setA_map_fst, List.map_append]
        rw [List.nodup_append]
        refine ⟨hnd0, List.nodup_singleton vr, ?_⟩
        intro a ha hb
        rw [List.map_cons, List.map_nil, List.mem_singleton] at hb
        subst hb
        exact (lookupA_eq_none_iff ME0 a).1 hfresh ha
      · refine ⟨setA mf "versions" (.arr ((pySort (dirKeys ME0 ++ [vr])).map .str)),
          lookupA_setA_self _ "metadata.json" _ _ hmfME4, ?_⟩
        rw [dirKeys_setA_file _ "metadata.json" _ _ hmfME4,
          dirKeys_setA_dir _ vr [] vd hvrME1, dirKeys_snoc_dir]
        exact lookupA_setA_self mf "versions" _ _ hvrs
    · rw [hframe ["modules", nm']
        (not_prefix_of_second_ne hnn)
        (not_prefix_of_second_ne (fun hh => hnn hh.symm))] at hlk
      exact hMInv nm' e' hlk

theorem lookupA_dir_mem_dirKeys :
    ∀ (es : List (String × Entry)) (k : String) (d : List (String × Entry)),
      lookupA es k = some (.dir d) → k ∈ dirKeys es
  | [], _, _, h => by simp [lookupA] at h
  | (k0, v0) :: es, k, d, h => by
    by_cases hk : k0 = k
    · subst hk
      simp only [lookupA, if_true, eq_self_iff_true, Option.some.injEq] at h
      subst h
      unfold dirKeys
      simp [List.filterMap_cons]
    · simp only [lookupA, if_neg hk] at h
      have ih := lookupA_dir_mem_dirKeys es k d h
      unfold dirKeys at ih ⊢
      simp only [List.filterMap_cons]
      cases v0 with
      | file c => exact ih
      | dir d0 => exact List.mem_cons_of_mem _ ih

theorem removeFirstStr_map_str :
    ∀ (xs : List String) (v : String),
      RegistryClient.removeFirstStr (xs.map .str) v =
        if v ∈ xs then some ((xs.erase v).map .str) else none
  | [], v => by simp [RegistryClient.removeFirstStr]
  | x :: xs, v => by
    by_cases hx : x = v
    · subst hx
      simp [RegistryClient.removeFirstStr, List.erase_cons_head]
    · rw [List.map_cons]
      rw [show RegistryClient.removeFirstStr (JVal.str x :: xs.map .str) v =
        (if x = v then some (xs.map .str)
          else (RegistryClient.removeFirstStr (xs.map .str) v).map (.str x :: ·)) from rfl]
      rw [if_neg hx, removeFirstStr_map_str xs v]
      by_cases hv : v ∈ xs
      · rw [if_pos hv, if_pos (List.mem_cons_of_mem _ hv)]
        rw [List.erase_cons_tail, List.map_cons]
        · rfl
        · simp [hx]
      · rw [if_neg hv, if_neg ?_]
        · rfl
        · intro hmem
          rcases List.mem_cons.1 hmem with h1 | h1
          · exact hx h1.symm
          · exact hv h1

/-- Full inversion of a successful `delete` on a well-formed registry:
the targeted version directory existed in the named module directory, and
the new state holds the module directory without it and with the version
removed from the (sorted) `versions` list of `metadata.json`, with every
path outside the module directory untouched and all ancestor listings
preserved. -/
theorem delete_inv {fs fs' : Entry} {nm vr : String}
    (hinv : RegInv fs) (h : RegistryClient.delete fs nm vr = .ok fs') :
    ∃ ME0 mf d,
      nm ≠ "" ∧ vr ≠ "" ∧ vr ≠ "metadata.json" ∧
      lookupE ["modules", nm] fs = some (.dir ME0) ∧
      lookupA ME0 vr = some (.dir d) ∧
      lookupA ME0 "metadata.json" = some (.file (.jval (.obj mf))) ∧
      lookupA mf "versions" = some (.arr ((pySort (dirKeys ME0)).map .str)) ∧
      (∀ q, ¬ q <+: ["modules", nm] → ¬ ["modules", nm] <+: q →
        lookupE q fs' = lookupE q fs) ∧
      (∀ q es, q <+: ["modules", nm] → q ≠ ["modules", nm] →
        lookupE q fs = some (.dir es) →
        ∃ es', lookupE q fs' = some (.dir es') ∧
          es'.map Prod.fst = es.map Prod.fst) ∧
      lookupE ["modules", nm] fs' = some (.dir
        (setA (eraseA ME0 vr) "metadata.json" (.file (.jval (.obj
          (setA mf "versions"
            (.arr (((pySort (dirKeys ME0)).erase vr).map .str)))))))) := by
  obtain ⟨⟨root, hrooteq, hrootnd⟩, ⟨M, hM, hMnd⟩, hMInv⟩ := hinv
  unfold RegistryClient.delete at h
  have h0 : (match rmtreeE (pj (pj (pj [] "modules") nm) vr) fs with
    | Option.none => Except.error (RegErr.ioError, fs)
    | some st1 =>
      match readFileE (pj (pj (pj [] "modules") nm) "metadata.json") st1 with
      | some (FileContent.jval (JVal.obj metadata)) =>
        match lookupA metadata "versions" with
        | some (JVal.arr versions) =>
          match RegistryClient.removeFirstStr versions vr with
          | some versions2 =>
            match writeFileE (pj (pj (pj [] "modules") nm) "metadata.json")
                (FileContent.jval (JVal.obj (setA metadata "versions"
                  (JVal.arr versions2)))) st1 with
            | some st2 => Except.ok st2
            | Option.none => Except.error (RegErr.ioError, st1)
          | Option.none => Except.error (RegErr.valueError, st1)
        | some _ => Except.error (RegErr.attrError, st1)
        | Option.none => Except.error (RegErr.keyError, st1)
      | _ => Except.error (RegErr.ioError, st1)) = Except.ok fs' := h
  clear h
  cases hrm : rmtreeE (pj (pj (pj [] "modules") nm) vr) fs with
  | none => rw [hrm] at h0; exact Except.noConfusion h0
  | some st1 =>
  rw [hrm] at h0
  have h1 : (match readFileE (pj (pj (pj [] "modules") nm) "metadata.json") st1 with
    | some (FileContent.jval (JVal.obj metadata)) =>
      match lookupA metadata "versions" with
      | some (JVal.arr versions) =>
        match RegistryClient.removeFirstStr versions vr with
        | some versions2 =>
          match writeFileE (pj (pj (pj [] "modules") nm) "metadata.json")
              (FileContent.jval (JVal.obj (setA metadata "versions"
                (JVal.arr versions2)))) st1 with
          | some st2 => Except.ok st2
          | Option.none => Except.error (RegErr.ioError, st1)
        | Option.none => Except.error (RegErr.valueError, st1)
      | some _ => Except.error (RegErr.attrError, st1)
      | Option.none => Except.error (RegErr.keyError, st1)
    | _ => Except.error (RegErr.ioError, st1)) = Except.ok fs' := h0
  clear h0
  cases hread : readFileE (pj (pj (pj [] "modules") nm) "metadata.json") st1 with
  | none => rw [hread] at h1; exact Except.noConfusion h1
  | some c =>
  rw [hread] at h1
  cases c with
  | text t => exact Except.noConfusion h1
  | lines l => exact Except.noConfusion h1
  | jval j =>
  cases j with
  | null => exact Except.noConfusion h1
  | str s => exact Except.noConfusion h1
  | int n => exact Except.noConfusion h1
  | arr a => exact Except.noConfusion h1
  | obj metadata =>
  have h2 : (match lookupA metadata "versions" with
    | some (JVal.arr versions) =>
      match RegistryClient.removeFirstStr versions vr with
      | some versions2 =>
        match writeFileE (pj (pj (pj [] "modules") nm) "metadata.json")
            (FileContent.jval (JVal.obj (setA metadata "versions"
              (JVal.arr versions2)))) st1 with
        | some st2 => Except.ok st2
        | Option.none => Except.error (RegErr.ioError, st1)
      | Option.none => Except.error (RegErr.valueError, st1)
    | some _ => Except.error (RegErr.attrError, st1)
    | Option.none => Except.error (RegErr.keyError, st1)) = Except.ok fs' := h1
  clear h1
  cases hvers : lookupA metadata "versions" with
  | none => rw [hvers] at h2; exact Except.noConfusion h2
  | some jv =>
  rw [hvers] at h2
  cases jv with
  | null => exact Except.noConfusion h2
  | str s => exact Except.noConfusion h2
  | int n => exact Except.noConfusion h2
  | obj o => exact Except.noConfusion h2
  | arr versions =>
  have h3 : (match RegistryClient.removeFirstStr versions vr with
    | some versions2 =>
      match writeFileE (pj (pj (pj [] "modules") nm) "metadata.json")
          (FileContent.jval (JVal.obj (setA metadata "versions"
            (JVal.arr versions2)))) st1 with
      | some st2 => Except.ok st2
      | Option.none => Except.error (RegErr.ioError, st1)
    | Option.none => Except.error (RegErr.valueError, st1)) = Except.ok fs' := h2
  clear h2
  cases hrem : RegistryClient.removeFirstStr versions vr with
  | none => rw [hrem] at h3; exact Except.noConfusion h3
  | some versions2 =>
  rw [hrem] at h3
  have h4 : (match writeFileE (pj (pj (pj [] "modules") nm) "metadata.json")
      (FileContent.jval (JVal.obj (setA metadata "versions"
        (JVal.arr versions2)))) st1 with
    | some st2 => Except.ok (ε := RegErr × Entry) st2
    | Option.none => Except.error (RegErr.ioError, st1)) = Except.ok fs' := h3
  clear h3
  cases hwf : writeFileE (pj (pj (pj [] "modules") nm) "metadata.json")
      (FileContent.jval (JVal.obj (setA metadata "versions" (JVal.arr versions2)))) st1 with
  | none => rw [hwf] at h4; exact Except.noConfusion h4
  | some st2 =>
  rw [hwf] at h4
  have hfs' : st2 = fs' := by
    have h5 : Except.ok (ε := RegErr × Entry) st2 = Except.ok fs' := h4
    injection h5
  subst hfs'
  -- the module name cannot be empty
  by_cases hnm : nm = ""
  · subst hnm
    rw [pj_empty] at hrm hread
    by_cases hvr : vr = ""
    · subst hvr
      rw [pj_empty] at hrm
      have hrm2 : rmtreeE ([] ++ ["modules"]) fs = some st1 := hrm
      obtain ⟨es, d, h1, h2, h3⟩ := rmtreeE_ok hrm2
      have h1' : fs = Entry.dir es := by
        have : some fs = some (Entry.dir es) := h1
        injection this
      subst h1'
      have hre : root = es := by
        have : Entry.dir root = Entry.dir es := hrooteq.symm
        injection this
      subst hre
      have h3' : st1 = Entry.dir (eraseA root "modules") := by
        have : some st1 = some (Entry.dir (eraseA root "modules")) := h3
        injection this
      subst h3'
      rw [pj_ne _ _ (show ("metadata.json" : String) ≠ "" by decide)] at hread
      unfold readFileE at hread
      rw [show (pj [] "modules" ++ ["metadata.json"] : List String) =
        "modules" :: ["metadata.json"] from rfl] at hread
      rw [show lookupE ("modules" :: ["metadata.json"])
          (Entry.dir (eraseA root "modules")) =
        (match lookupA (eraseA root "modules") "modules" with
          | some e => lookupE ["metadata.json"] e
          | Option.none => Option.none) from rfl] at hread
      rw [lookupA_eraseA_self_of_nodup root "modules" hrootnd] at hread
      simp at hread
    · rw [pj_ne _ _ hvr] at hrm
      obtain ⟨M0, d, h1, h2, h3⟩ := rmtreeE_ok hrm
      have hMM : M = M0 := by
        have h9 := h1
        rw [show (pj [] "modules" : List String) = ["modules"] from rfl, hM] at h9
        simp only [Option.some.injEq, Entry.dir.injEq] at h9
        exact h9
      subst hMM
      rw [pj_ne _ _ (show ("metadata.json" : String) ≠ "" by decide)] at hread
      unfold readFileE at hread
      rw [lookupE_append, h3] at hread
      by_cases hvm : vr = "metadata.json"
      · subst hvm
        rw [show (Option.some (Entry.dir (eraseA M "metadata.json"))).bind
            (lookupE ["metadata.json"]) =
          lookupA (eraseA M "metadata.json") "metadata.json" from
            by rw [Option.bind]; exact lookupE_single _ _] at hread
        rw [lookupA_eraseA_self_of_nodup M "metadata.json" hMnd] at hread
        simp at hread
      · rw [show (Option.some (Entry.dir (eraseA M vr))).bind
            (lookupE ["metadata.json"]) =
          lookupA (eraseA M vr) "metadata.json" from
            by rw [Option.bind]; exact lookupE_single _ _] at hread
        rw [lookupA_eraseA_other M vr "metadata.json"
          (fun hh => hvm hh.symm)] at hread
        cases hlk : lookupA M "metadata.json" with
        | none => rw [hlk] at hread; simp at hread
        | some e =>
          have hlk2 : lookupE ["modules", "metadata.json"] fs = some e := by
            rw [show (["modules", "metadata.json"] : List String) =
              ["modules"] ++ ["metadata.json"] from rfl, lookupE_append, hM]
            rw [Option.bind]
            rw [lookupE_single]
            exact hlk
          obtain ⟨es2, rfl, _⟩ := hMInv "metadata.json" e hlk2
          rw [hlk] at hread
          simp at hread
  · rw [pj_ne _ _ hnm] at hrm hread hwf
    rw [pj_ne _ _ (show ("metadata.json" : String) ≠ "" by decide)] at hread hwf
    by_cases hvr : vr = ""
    · subst hvr
      rw [pj_empty] at hrm
      obtain ⟨M0, d, h1, h2, h3⟩ := rmtreeE_ok hrm
      have hMM : M = M0 := by
        have h9 := h1
        rw [show (pj [] "modules" : List String) = ["modules"] from rfl, hM] at h9
        simp only [Option.some.injEq, Entry.dir.injEq] at h9
        exact h9
      subst hMM
      unfold readFileE at hread
      rw [lookupE_append, lookupE_append, h3] at hread
      rw [show (Option.some (Entry.dir (eraseA M nm))).bind (lookupE [nm]) =
        lookupA (eraseA M nm) nm from by rw [Option.bind]; exact lookupE_single _ _]
        at hread
      rw [lookupA_eraseA_self_of_nodup M nm hMnd] at hread
      simp at hread
    · rw [pj_ne _ _ hvr] at hrm
      obtain ⟨ME0, d, hME0, hvd, hst1⟩ := rmtreeE_ok hrm
      have hME0' : lookupE ["modules", nm] fs = some (.dir ME0) := hME0
      obtain ⟨ME0', heq0, hMDI⟩ := hMInv nm (.dir ME0) hME0'
      have heq0' : ME0 = ME0' := by injection heq0
      subst heq0'
      obtain ⟨hnd0, mf, hmf, hvrs⟩ := hMDI
      have hvm : vr ≠ "metadata.json" := by
        intro hh
        rw [hh, hmf] at hvd
        have : Entry.file (FileContent.jval (JVal.obj mf)) = Entry.dir d := by
          injection hvd
        exact Entry.noConfusion this
      have hlkerase : lookupA (eraseA ME0 vr) "metadata.json" =
          some (.file (.jval (.obj mf))) := by
        rw [lookupA_eraseA_other ME0 vr "metadata.json" (fun hh => hvm hh.symm)]
        exact hmf
      have hlkread : lookupE ((pj [] "modules" ++ [nm]) ++ ["metadata.json"]) st1 =
          some (.file (.jval (.obj mf))) := by
        rw [lookupE_append, hst1]
        show lookupE ["metadata.json"] (Entry.dir _) = _
        rw [lookupE_single, hlkerase]
      unfold readFileE at hread
      rw [hlkread] at hread
      have hread' : some (FileContent.jval (JVal.obj mf)) =
          some (FileContent.jval (JVal.obj metadata)) := hread
      simp only [Option.some.injEq, FileContent.jval.injEq, JVal.obj.injEq] at hread'
      subst hread'
      rw [hvrs] at hvers
      have hvs : versions = (pySort (dirKeys ME0)).map .str := by
        have := hvers.symm
        simp only [Option.some.injEq, JVal.arr.injEq] at this
        exact this
      subst hvs
      rw [removeFirstStr_map_str] at hrem
      rw [if_pos ((pySort_perm (dirKeys ME0)).mem_iff.2
        (lookupA_dir_mem_dirKeys ME0 vr d hvd))] at hrem
      have hv2 : versions2 = ((pySort (dirKeys ME0)).erase vr).map .str := by
        have := hrem
        simp only [Option.some.injEq] at this
        exact this.symm
      subst hv2
      obtain ⟨es, es', hE1, hE2, hE3, hE4, hE5, hE6, hE7, hE8⟩ := writeFileE_ok hwf
      have hes : es = eraseA ME0 vr := by
        rw [hst1] at hE1
        have := hE1
        simp only [Option.some.injEq, Entry.dir.injEq] at this
        exact this.symm
      subst hes
      have hes' : es' = setA (eraseA ME0 vr) "metadata.json"
          (.file (.jval (.obj (setA mf "versions"
            (.arr (((pySort (dirKeys ME0)).erase vr).map .str)))))) :=
        hE7 _ hlkerase
      subst hes'
      have hrmT := rmtreeE_touches hrm
      have hwfT := writeFileE_touches hwf
      have hTot := hrmT.trans hwfT
      exact ⟨ME0, mf, d, hnm, hvr, hvm, hME0', hvd, hmf, hvrs,
        fun q hq1 hq2 => hTot.1 q hq1 hq2,
        fun q es2 hq hne hes2 => hTot.2.2.1 q es2 hq hne hes2,
        hE2⟩

/-- A successful `delete` preserves the registry invariant. -/
theorem RegInv_delete {fs fs' : Entry} {nm vr : String}
    (hinv : RegInv fs) (h : RegistryClient.delete fs nm vr = .ok fs') : RegInv fs' := by
  obtain ⟨ME0, mf, d, hnm, hvr, hvm, hME0, hvd, hmf, hvrs, hframe, hanc, hfin⟩ :=
    delete_inv hinv h
  obtain ⟨⟨root, hrooteq, hrootnd⟩, ⟨M, hM, hMnd⟩, hMInv⟩ := hinv
  obtain ⟨ME0', heq0, hMDI⟩ := hMInv nm (.dir ME0) hME0
  have heq0' : ME0 = ME0' := by injection heq0
  subst heq0'
  obtain ⟨hnd0, mf0, hmf0, hvrs0⟩ := hMDI
  have hlkerase : lookupA (eraseA ME0 vr) "metadata.json" =
      some (.file (.jval (.obj mf))) := by
    rw [lookupA_eraseA_other ME0 vr _ (fun hh => hvm hh.symm)]
    exact hmf
  refine ⟨?_, ?_, ?_⟩
  · obtain ⟨root', hr1, hr2⟩ := hanc [] root (by simp) (by simp) (by rw [hrooteq]; rfl)
    have h0 : some fs' = some (Entry.dir root') := hr1
    have hbe : fs' = Entry.dir root' := by injection h0
    exact ⟨root', hbe, by rw [hr2]; exact hrootnd⟩
  · obtain ⟨M', hM1, hM2⟩ := hanc ["modules"] M ⟨[nm], rfl⟩ (by simp) hM
    exact ⟨M', hM1, by rw [hM2]; exact hMnd⟩
  · intro nm' e' hlk
    by_cases hnn : nm' = nm
    · subst hnn
      rw [hfin] at hlk
      have he' : e' = Entry.dir (setA (eraseA ME0 vr) "metadata.json"
          (.file (.jval (.obj (setA mf "versions"
            (.arr (((pySort (dirKeys ME0)).erase vr).map .str))))))) := by
        have hlk2 := hlk
        simp only [Option.some.injEq] at hlk2
        exact hlk2.symm
      subst he'
      refine ⟨_, rfl, ?_, ?_⟩
      · rw [setA_map_fst, eraseA_map_fst]
        exact hnd0.erase vr
      · refine ⟨setA mf "versions" (.arr (((pySort (dirKeys ME0)).erase vr).map .str)),
          lookupA_setA_self _ "metadata.json" _ _ hlkerase, ?_⟩
        rw [dirKeys_setA_file _ "metadata.json" _ _ hlkerase,
          dirKeys_eraseA ME0 vr d hvd hnd0, ← pySort_erase]
        exact lookupA_setA_self mf "versions" _ _ hvrs
    · rw [hframe ["modules", nm'] (not_prefix_of_second_ne hnn)
        (not_prefix_of_second_ne (fun hh => hnn hh.symm))] at hlk
      exact hMInv nm' e' hlk

/-- Inversion of a successful `init_module`: the four steps (create the
module directory, write its fresh `metadata.json`, read `module_list`,
rewrite it sorted with the new name appended) all succeeded in order. -/
theorem init_ok_elim {fs fs' : Entry} {nm : String} {mt : JVal} {hp : String}
    (h : RegistryClient.init_module fs nm mt hp = .ok fs') :
    ∃ st1 st2 modules,
      mkdirE (pj (pj [] "modules") nm) fs = some st1 ∧
      writeFileE (pj (pj (pj [] "modules") nm) "metadata.json")
        (.jval (.obj [("maintainers", mt), ("homepage", .str hp),
          ("versions", .arr []), ("yanked_versions", .obj [])])) st1 = some st2 ∧
      readFileE (pj [] "module_list") st2 = some (.lines modules) ∧
      writeFileE (pj [] "module_list")
        (.lines (pySort (modules ++ [nm ++ "\n"]))) st2 = some fs' := by
  unfold RegistryClient.init_module at h
  have h0 : (match mkdirE (pj (pj [] "modules") nm) fs with
    | Option.none => Except.error (RegErr.ioError, fs)
    | some st1 =>
      match writeFileE (pj (pj (pj [] "modules") nm) "metadata.json")
          (FileContent.jval (JVal.obj [("maintainers", mt), ("homepage", .str hp),
            ("versions", .arr []), ("yanked_versions", .obj [])])) st1 with
      | Option.none => Except.error (RegErr.ioError, st1)
      | some st2 =>
        match readFileE (pj [] "module_list") st2 with
        | some (FileContent.lines modules) =>
          match writeFileE (pj [] "module_list")
              (FileContent.lines (pySort (modules ++ [nm ++ "\n"]))) st2 with
          | some st3 => Except.ok st3
          | Option.none => Except.error (RegErr.ioError, st2)
        | _ => Except.error (RegErr.ioError, st2)) = Except.ok fs' := h
  clear h
  cases hmk : mkdirE (pj (pj [] "modules") nm) fs with
  | none => rw [hmk] at h0; exact Except.noConfusion h0
  | some st1 =>
  rw [hmk] at h0
  have h1 : (match writeFileE (pj (pj (pj [] "modules") nm) "metadata.json")
      (FileContent.jval (JVal.obj [("maintainers", mt), ("homepage", .str hp),
        ("versions", .arr []), ("yanked_versions", .obj [])])) st1 with
    | Option.none => Except.error (RegErr.ioError, st1)
    | some st2 =>
      match readFileE (pj [] "module_list") st2 with
      | some (FileContent.lines modules) =>
        match writeFileE (pj [] "module_list")
            (FileContent.lines (pySort (modules ++ [nm ++ "\n"]))) st2 with
        | some st3 => Except.ok st3
        | Option.none => Except.error (RegErr.ioError, st2)
      | _ => Except.error (RegErr.ioError, st2)) = Except.ok fs' := h0
  clear h0
  cases hw1 : writeFileE (pj (pj (pj [] "modules") nm) "metadata.json")
      (FileContent.jval (JVal.obj [("maintainers", mt), ("homepage", .str hp),
        ("versions", .arr []), ("yanked_versions", .obj [])])) st1 with
  | none => rw [hw1] at h1; exact Except.noConfusion h1
  | some st2 =>
  rw [hw1] at h1
  have h2 : (match readFileE (pj [] "module_list") st2 with
    | some (FileContent.lines modules) =>
      match writeFileE (pj [] "module_list")
          (FileContent.lines (pySort (modules ++ [nm ++ "\n"]))) st2 with
      | some st3 => Except.ok st3
      | Option.none => Except.error (RegErr.ioError, st2)
    | _ => Except.error (ε := RegErr × Entry) (RegErr.ioError, st2)) = Except.ok fs' := h1
  clear h1
  cases hrd : readFileE (pj [] "module_list") st2 with
  | none => rw [hrd] at h2; exact Except.noConfusion h2
  | some c =>
  rw [hrd] at h2
  cases c with
  | text t => exact Except.noConfusion h2
  | jval j => exact Except.noConfusion h2
  | lines modules =>
  have h3 : (match writeFileE (pj [] "module_list")
      (FileContent.lines (pySort (modules ++ [nm ++ "\n"]))) st2 with
    | some st3 => Except.ok (ε := RegErr × Entry) st3
    | Option.none => Except.error (RegErr.ioError, st2)) = Except.ok fs' := h2
  clear h2
  cases hw2 : writeFileE (pj [] "module_list")
      (FileContent.lines (pySort (modules ++ [nm ++ "\n"]))) st2 with
  | none => rw [hw2] at h3; exact Except.noConfusion h3
  | some st3 =>
  rw [hw2] at h3
  have hfs' : st3 = fs' := by
    have h5 : Except.ok (ε := RegErr × Entry) st3 = Except.ok fs' := h3
    injection h5
  subst hfs'
  exact ⟨st1, st2, modules, rfl, hw1, hrd, hw2⟩

theorem readFileE_some {p : List String} {fs : Entry} {c : FileContent}
    (h : readFileE p fs = some c) : lookupE p fs = some (.file c) := by
  unfold readFileE at h
  cases hl : lookupE p fs with
  | none => rw [hl] at h; simp at h
  | some e =>
    rw [hl] at h
    cases e with
    | dir d => simp at h
    | file c0 =>
      have h2 : some c0 = some c := h
      simp only [Option.some.injEq] at h2
      rw [h2]

/-- Structured inversion of a successful `init_module` when the `modules`
directory exists: the name is nonempty and fresh, `module_list` is
rewritten sorted with the new name appended, the new module directory
holds exactly its fresh `metadata.json`, and everything else (other
module entries, directory listings' names) is preserved. -/
theorem init_inv {fs fs' : Entry} {nm : String} {mt : JVal} {hp : String}
    (hmods : ∃ M, lookupE ["modules"] fs = some (.dir M))
    (h : RegistryClient.init_module fs nm mt hp = .ok fs') :
    ∃ M modules,
      nm ≠ "" ∧
      lookupE ["modules"] fs = some (.dir M) ∧
      lookupA M nm = none ∧
      readFileE ["module_list"] fs = some (.lines modules) ∧
      readFileE ["module_list"] fs' =
        some (.lines (pySort (modules ++ [nm ++ "\n"]))) ∧
      lookupE ["modules", nm] fs' = some (.dir
        [("metadata.json", .file (.jval (.obj [("maintainers", mt),
          ("homepage", .str hp), ("versions", .arr []),
          ("yanked_versions", .obj [])])))]) ∧
      (∀ nm', nm' ≠ nm →
        lookupE ["modules", nm'] fs' = lookupE ["modules", nm'] fs) ∧
      (∃ M', lookupE ["modules"] fs' = some (.dir M') ∧
        M'.map Prod.fst = M.map Prod.fst ++ [nm]) ∧
      (∃ root root', fs = .dir root ∧ fs' = .dir root' ∧
        root'.map Prod.fst = root.map Prod.fst) := by
  obtain ⟨M, hM⟩ := hmods
  obtain ⟨st1, st2, modules, hmk, hw1, hrd, hw2⟩ := init_ok_elim h
  by_cases hnm : nm = ""
  · subst hnm
    rw [pj_empty] at hmk
    have hmk2 : mkdirE ([] ++ ["modules"]) fs = some st1 := hmk
    obtain ⟨es, h1, h2, h3⟩ := mkdirE_ok hmk2
    have h1' : fs = Entry.dir es := by
      have h0 : some fs = some (Entry.dir es) := h1
      injection h0
    subst h1'
    rw [lookupE_single "modules" es, h2] at hM
    exact Option.noConfusion hM
  · rw [pj_ne _ _ hnm] at hmk hw1
    obtain ⟨M0, hM0, hfresh, hst1⟩ := mkdirE_ok hmk
    have hMM : M = M0 := by
      have h9 := hM0
      rw [show (pj [] "modules" : List String) = ["modules"] from rfl, hM] at h9
      simp only [Option.some.injEq, Entry.dir.injEq] at h9
      exact h9
    subst hMM
    rw [pj_ne _ _ (show ("metadata.json" : String) ≠ "" by decide)] at hw1
    have hdir1 : lookupE (pj [] "modules" ++ [nm]) st1 = some (.dir []) :=
      RegistryClient.mkdirE_lookup hmk
    obtain ⟨es1, es1', hF1, hF2, hF3, hF4, hF5, hF6, hF7, hF8⟩ := writeFileE_ok hw1
    have hes1 : es1 = [] := by
      rw [hdir1] at hF1
      have h9 := hF1
      simp only [Option.some.injEq, Entry.dir.injEq] at h9
      exact h9.symm
    subst hes1
    have hes1' : es1' = [("metadata.json", .file (.jval (.obj [("maintainers", mt),
        ("homepage", .str hp), ("versions", .arr []),
        ("yanked_versions", .obj [])])))] := hF6 rfl
    subst hes1'
    have hmkT := mkdirE_touches hmk
    have hw1T := writeFileE_touches hw1
    have hw2' : writeFileE ([] ++ ["module_list"])
        (.lines (pySort (modules ++ [nm ++ "\n"]))) st2 = some fs' := hw2
    have hw2T := writeFileE_touches hw2'
    have hml_fs : readFileE ["module_list"] fs = some (.lines modules) := by
      have e1 : lookupE ["module_list"] st1 = lookupE ["module_list"] fs :=
        hmkT.1 ["module_list"] (not_prefix_of_head_ne (by decide))
          (not_prefix_of_head_ne (by decide))
      have e2 : lookupE ["module_list"] st2 = lookupE ["module_list"] st1 :=
        hw1T.1 ["module_list"] (not_prefix_of_head_ne (by decide))
          (not_prefix_of_head_ne (by decide))
      have hrd2 : readFileE ["module_list"] st2 = some (.lines modules) := hrd
      unfold readFileE at hrd2 ⊢
      rw [e2, e1] at hrd2
      exact hrd2
    have hml_fs' : readFileE ["module_list"] fs' =
        some (.lines (pySort (modules ++ [nm ++ "\n"]))) := writeFileE_read hw2'
    have hnew : lookupE ["modules", nm] fs' = some (.dir
        [("metadata.json", .file (.jval (.obj [("maintainers", mt),
          ("homepage", .str hp), ("versions", .arr []),
          ("yanked_versions", .obj [])])))]) := by
      have v3 : lookupE ([] ++ "modules" :: [nm]) fs' =
          lookupE ([] ++ "modules" :: [nm]) st2 :=
        hw2T.2.1 "modules" [nm] (by decide)
      have v3' : lookupE ["modules", nm] fs' = lookupE ["modules", nm] st2 := v3
      rw [v3']
      exact hF2
    have hother : ∀ nm', nm' ≠ nm →
        lookupE ["modules", nm'] fs' = lookupE ["modules", nm'] fs := by
      intro nm' hne
      have v3 : lookupE ([] ++ "modules" :: [nm']) fs' =
          lookupE ([] ++ "modules" :: [nm']) st2 :=
        hw2T.2.1 "modules" [nm'] (by decide)
      have v2 : lookupE ["modules", nm'] st2 = lookupE ["modules", nm'] st1 :=
        hw1T.1 ["modules", nm'] (not_prefix_of_second_ne hne)
          (not_prefix_of_second_ne (fun hh => hne hh.symm))
      have v1 : lookupE (pj [] "modules" ++ nm' :: []) st1 =
          lookupE (pj [] "modules" ++ nm' :: []) fs :=
        hmkT.2.1 nm' [] (by rw [List.mem_singleton]; exact hne)
      have v3' : lookupE ["modules", nm'] fs' = lookupE ["modules", nm'] st2 := v3
      have v1' : lookupE ["modules", nm'] st1 = lookupE ["modules", nm'] fs := v1
      rw [v3', v2, v1']
    have hMkeys : ∃ M', lookupE ["modules"] fs' = some (.dir M') ∧
        M'.map Prod.fst = M.map Prod.fst ++ [nm] := by
      obtain ⟨M2, hM2, hK2⟩ := hw1T.2.2.1 (pj [] "modules")
        (M ++ [(nm, Entry.dir [])]) ⟨[nm], rfl⟩
        (by intro hh; have := congrArg List.length hh; simp [pj] at this) hst1
      have v3 : lookupE ([] ++ "modules" :: []) fs' =
          lookupE ([] ++ "modules" :: []) st2 :=
        hw2T.2.1 "modules" [] (by decide)
      have v3' : lookupE ["modules"] fs' = lookupE ["modules"] st2 := v3
      have hM2' : lookupE ["modules"] st2 = some (.dir M2) := hM2
      refine ⟨M2, by rw [v3']; exact hM2', ?_⟩
      rw [hK2, List.map_append]
      rfl
    refine ⟨M, modules, hnm, hM, hfresh, hml_fs, hml_fs', hnew, hother, hMkeys, ?_⟩
    cases fs with
    | file c => simp [lookupE] at hM
    | dir root =>
      obtain ⟨r1, hr1, hk1⟩ := hmkT.2.2.1 [] root (by simp)
        (by intro hh; have := congrArg List.length hh; simp [pj] at this) rfl
      obtain ⟨r2, hr2, hk2⟩ := hw1T.2.2.1 [] r1 (by simp)
        (by intro hh; have := congrArg List.length hh; simp [pj] at this) hr1
      obtain ⟨es3, es3', hG1, hG2, hG3, hG4, hG5, hG6, hG7, hG8⟩ := writeFileE_ok hw2'
      have hes3 : r2 = es3 := by
        rw [hr2] at hG1
        have h9 := hG1
        simp only [Option.some.injEq, Entry.dir.injEq] at h9
        exact h9
      subst hes3
      have hfs'd : fs' = Entry.dir es3' := by
        have h0 : some fs' = some (Entry.dir es3') := hG2
        injection h0
      have hst2d : st2 = Entry.dir r2 := by
        have h0 : some st2 = some (Entry.dir r2) := hr2
        injection h0
      have hlk := readFileE_some
        (show readFileE ["module_list"] st2 = some (.lines modules) from hrd)
      rw [hst2d, lookupE_single] at hlk
      have hkeys : es3'.map Prod.fst = r2.map Prod.fst := by
        rw [hG5, hlk]
        simp
      exact ⟨root, es3', rfl, hfs'd, by rw [hkeys, hk2, hk1]⟩

/-- A successful `init_module` preserves the registry invariant. -/
theorem RegInv_init {fs fs' : Entry} {nm : String} {mt : JVal} {hp : String}
    (hinv : RegInv fs) (h : RegistryClient.init_module fs nm mt hp = .ok fs') :
    RegInv fs' := by
  obtain ⟨⟨root0, hrooteq, hrootnd⟩, ⟨M0, hM0, hMnd⟩, hMInv⟩ := hinv
  obtain ⟨M, modules, hnm, hM, hfresh, hml, hml', hnew, hother, ⟨M', hM', hK'⟩,
    ⟨root, root', hr, hr', hrk⟩⟩ := init_inv ⟨M0, hM0⟩ h
  have hMM : M0 = M := by
    rw [hM0] at hM
    simp only [Option.some.injEq, Entry.dir.injEq] at hM
    exact hM
  subst hMM
  have hrr : root0 = root := by
    rw [hrooteq] at hr
    injection hr
  subst hrr
  refine ⟨⟨root', hr', by rw [hrk]; exact hrootnd⟩, ⟨M', hM', ?_⟩, ?_⟩
  · rw [hK', List.nodup_append]
    refine ⟨hMnd, List.nodup_singleton nm, ?_⟩
    intro a ha hb
    rw [List.mem_singleton] at hb
    subst hb
    exact (lookupA_eq_none_iff M0 a).1 hfresh ha
  · intro nm' e' hlk
    by_cases hnn : nm' = nm
    · subst hnn
      rw [hnew] at hlk
      have he' : e' = Entry.dir [("metadata.json", .file (.jval (.obj
          [("maintainers", mt), ("homepage", .str hp), ("versions", .arr []),
            ("yanked_versions", .obj [])])))] := by
        have h2 := hlk
        simp only [Option.some.injEq] at h2
        exact h2.symm
      subst he'
      refine ⟨_, rfl, by simp, ?_⟩
      refine ⟨[("maintainers", mt), ("homepage", .str hp), ("versions", .arr []),
        ("yanked_versions", .obj [])], by simp [lookupA], ?_⟩
      show lookupA _ "versions" = some (.arr ((pySort (dirKeys
        [("metadata.json", Entry.file (.jval (.obj [("maintainers", mt),
          ("homepage", .str hp), ("versions", .arr []),
          ("yanked_versions", .obj [])])))])).map .str))
      simp [lookupA, dirKeys, pySort, sortBy]
    · rw [hother nm' hnn] at hlk
      exact hMInv nm' e' hlk

/-- The registry invariant is preserved by every successful operation
sequence. -/
theorem RegInv_runOps {ext : ExtFS} :
    ∀ (ops : List RegOp) (fs fs' : Entry), RegInv fs →
      runOps ext fs ops = .ok fs' → RegInv fs'
  | [], fs, fs', hinv, h => by
    have h0 : Except.ok (ε := RegErr × Entry) fs = .ok fs' := h
    have h1 : fs = fs' := by injection h0
    subst h1
    exact hinv
  | op :: ops, fs, fs', hinv, h => by
    unfold runOps at h
    cases hap : applyOp ext fs op with
    | error e => rw [hap] at h; exact Except.noConfusion h
    | ok st =>
      rw [hap] at h
      have h' : runOps ext st ops = .ok fs' := h
      have hst : RegInv st := by
        cases op with
        | initOp nm mt hp => exact RegInv_init hinv hap
        | addOp m => exact RegInv_add hinv hap
        | delOp nm vr => exact RegInv_delete hinv hap
      exact RegInv_runOps ops st fs' hst h'

/-- The empty registry is well formed. -/
theorem RegInv_empty : RegInv emptyRegistry := by
  refine ⟨⟨_, rfl, by decide⟩, ⟨[], rfl, by decide⟩, ?_⟩
  intro nm e hlk
  simp [emptyRegistry, lookupE, lookupA] at hlk

/-! ## Claim C3 -/

/-- The listing of `modules/demo` in `demoRegistry2` (spelled out for the
concrete check below). -/
def demoModuleDir : List (String × Entry) :=
  [("metadata.json", .file (.jval (.obj [("maintainers", .arr []),
      ("homepage", .str "https://example.com"),
      ("versions", .arr [.str "1.0"]), ("yanked_versions", .obj [])]))),
   ("1.0", .dir [("MODULE.bazel", .file (.text
      "module(\n    name = \"demo\",\n    version = \"1.0\",\n    compatibility_level = \"1\",\n)\n\nbazel_dep(name = \"foo\", version = \"1.0\")\nbazel_dep(name = \"bar\", version = \"2.0\")")),
     ("source.json", .file (.jval (.obj
       [("url", .str "https://example.com/demo-1.0.tar.gz"),
        ("integrity", .str "sha256-deadbeef")]))),
     ("presubmit.yml", .file (.jval (.obj [("platforms", .obj [
        ("linux", .obj [("build_targets", .arr [.str "//:lib"])]),
        ("macos", .obj [("build_targets", .arr [.str "//:lib"])]),
        ("windows", .obj [("build_targets", .arr [.str "//:lib"])])])])))])]

/-- C3: after any sequence of successful client calls (`init_module`,
`add`, `delete`) starting from a well-formed registry, the `versions`
list in every module's `metadata.json` equals the sorted list of the
version subdirectories actually present in that module's directory. -/
theorem claim_C3_versions_match_directories (ext : ExtFS) (ops : List RegOp)
    (fs fs' : Entry) (hinv : RegInv fs) (h : runOps ext fs ops = .ok fs') :
    ∀ nm ME, lookupE ["modules", nm] fs' = some (.dir ME) →
      ∃ mf, lookupA ME "metadata.json" = some (.file (.jval (.obj mf))) ∧
        lookupA mf "versions" = some (.arr ((pySort (dirKeys ME)).map .str)) := by
  intro nm ME hME
  obtain ⟨_, _, hMInv⟩ := RegInv_runOps ops fs fs' hinv h
  obtain ⟨es, heq, hMDI⟩ := hMInv nm (.dir ME) hME
  have hMEes : ME = es := by injection heq
  subst hMEes
  obtain ⟨hnd, mf, h1, h2⟩ := hMDI
  exact ⟨mf, h1, h2⟩

/-- Concrete check of C3: adding `demoModule` to the initialized demo
registry leaves `modules/demo/metadata.json` with `versions` equal to the
sorted version-directory list `["1.0"]`. -/
theorem claim_C3_versions_match_directories_witness :
    RegInv demoRegistry1 ∧
    runOps demoExt demoRegistry1 [RegOp.addOp demoModule] = .ok demoRegistry2 ∧
    lookupE ["modules", "demo"] demoRegistry2 = some (.dir demoModuleDir) ∧
    ∃ mf, lookupA demoModuleDir "metadata.json" = some (.file (.jval (.obj mf))) ∧
      lookupA mf "versions" = some (.arr ((pySort (dirKeys demoModuleDir)).map .str)) := by
  have hinv : RegInv demoRegistry1 :=
    @RegInv_init emptyRegistry demoRegistry1 "demo" (.arr [])
      "https://example.com" RegInv_empty rfl
  refine ⟨hinv, rfl, rfl, ?_⟩
  exact claim_C3_versions_match_directories demoExt [RegOp.addOp demoModule]
    demoRegistry1 demoRegistry2 hinv rfl "demo" demoModuleDir rfl

/-! ## Claim C7 -/

/-- Forward construction of a successful `delete`: when the version
directory and a well-shaped `metadata.json` are present, `delete`
succeeds and produces the expected module-directory listing. -/
theorem delete_build {fs : Entry} {nm vr : String} {ME : List (String × Entry)}
    {mf : List (String × JVal)} {vs vs' : List JVal} {d : List (String × Entry)}
    (hnm : nm ≠ "") (hvr : vr ≠ "") (hvm : vr ≠ "metadata.json")
    (hME : lookupE ["modules", nm] fs = some (.dir ME))
    (hvd : lookupA ME vr = some (.dir d))
    (hmf : lookupA ME "metadata.json" = some (.file (.jval (.obj mf))))
    (hvs : lookupA mf "versions" = some (.arr vs))
    (hrem : RegistryClient.removeFirstStr vs vr = some vs') :
    ∃ fs', RegistryClient.delete fs nm vr = .ok fs' ∧
      lookupE ["modules", nm] fs' = some (.dir
        (setA (eraseA ME vr) "metadata.json"
          (.file (.jval (.obj (setA mf "versions" (.arr vs'))))))) := by
  have hME2 : lookupE (pj [] "modules" ++ [nm]) fs = some (.dir ME) := hME
  obtain ⟨st1, hrm, hst1⟩ := rmtreeE_build hME2 hvd
  have hlk1 : lookupA (eraseA ME vr) "metadata.json" =
      some (.file (.jval (.obj mf))) := by
    rw [lookupA_eraseA_other ME vr _ (fun hh => hvm hh.symm)]
    exact hmf
  have hread : readFileE ((pj [] "modules" ++ [nm]) ++ ["metadata.json"]) st1 =
      some (.jval (.obj mf)) := by
    unfold readFileE
    rw [lookupE_append, hst1]
    show (match lookupE ["metadata.json"] (Entry.dir (eraseA ME vr)) with
      | some (.file c) => some c
      | _ => Option.none) = some (FileContent.jval (JVal.obj mf))
    rw [lookupE_single, hlk1]
  obtain ⟨fsR, hwf, hfsR⟩ := writeFileE_build_over
    (c := FileContent.jval (JVal.obj (setA mf "versions" (JVal.arr vs')))) hst1 hlk1
  refine ⟨fsR, ?_, hfsR⟩
  unfold RegistryClient.delete
  simp only [pj_ne _ _ hnm, pj_ne _ _ hvr,
    pj_ne _ _ (show ("metadata.json" : String) ≠ "" by decide)]
  simp only [hrm, hread, hvs, hrem, hwf]

/-- C7: every version successfully added to a well-formed registry can be
deleted again: `delete(name, version)` succeeds, removes the version
directory entirely, removes the version string from
`metadata.json["versions"]`, and a subsequent `contains(name, version)`
(the store's exists-check) returns `false`. -/
theorem claim_C7_delete_reverses_add (fs fs' : Entry) (ext : ExtFS) (m : Module)
    (nm vr : String) (hn : m.name = some nm) (hv : m.version = some vr)
    (hinv : RegInv fs) (h : RegistryClient.add fs ext m = .ok fs') :
    ∃ fs'', RegistryClient.delete fs' nm vr = .ok fs'' ∧
      lookupE ["modules", nm, vr] fs'' = Option.none ∧
      (∃ ME mf vs, lookupE ["modules", nm] fs'' = some (.dir ME) ∧
        lookupA ME "metadata.json" = some (.file (.jval (.obj mf))) ∧
        lookupA mf "versions" = some (.arr vs) ∧ JVal.str vr ∉ vs) ∧
      RegistryClient.contains fs'' nm (some vr) = false := by
  obtain ⟨nm0, vr0, ME0, mf, vd, hn0, hv0, hnm, hvr, hvm, hME0, hfresh, hmf, hvrs,
    hframe, hanc, hfin⟩ := add_inv hinv h
  rw [hn] at hn0
  rw [hv] at hv0
  have hnn : nm = nm0 := by injection hn0
  have hvv : vr = vr0 := by injection hv0
  subst hnn
  subst hvv
  obtain ⟨ME0', heq0, hMDI⟩ := hinv.2.2 nm (.dir ME0) hME0
  have heq0' : ME0 = ME0' := by injection heq0
  subst heq0'
  obtain ⟨hnd0, mf1, hmf1, hvrs1⟩ := hMDI
  have hvrME1 : lookupA (ME0 ++ [(vr, Entry.dir [])]) vr = some (.dir []) :=
    lookupA_snoc_self ME0 vr _ hfresh
  have hvrME4 : lookupA (setA (ME0 ++ [(vr, Entry.dir [])]) vr (.dir vd)) vr =
      some (.dir vd) := lookupA_setA_self _ vr _ _ hvrME1
  have hvrME' : lookupA (setA (setA (ME0 ++ [(vr, Entry.dir [])]) vr (.dir vd))
      "metadata.json" (.file (.jval (.obj (setA mf "versions"
        (.arr ((pySort (dirKeys ME0 ++ [vr])).map .str))))))) vr =
      some (.dir vd) := by
    rw [lookupA_setA_other _ "metadata.json" vr _ hvm]
    exact hvrME4
  have hmfME4 : lookupA (setA (ME0 ++ [(vr, Entry.dir [])]) vr (.dir vd))
      "metadata.json" = some (.file (.jval (.obj mf))) := by
    rw [lookupA_setA_other _ vr _ _ (fun hh => hvm hh.symm),
      lookupA_snoc_other ME0 vr _ _ (fun hh => hvm hh.symm)]
    exact hmf
  have hmfME' : lookupA (setA (setA (ME0 ++ [(vr, Entry.dir [])]) vr (.dir vd))
      "metadata.json" (.file (.jval (.obj (setA mf "versions"
        (.arr ((pySort (dirKeys ME0 ++ [vr])).map .str))))))) "metadata.json" =
      some (.file (.jval (.obj (setA mf "versions"
        (.arr ((pySort (dirKeys ME0 ++ [vr])).map .str)))))) :=
    lookupA_setA_self _ _ _ _ hmfME4
  have hvsnew : lookupA (setA mf "versions"
      (.arr ((pySort (dirKeys ME0 ++ [vr])).map .str))) "versions" =
      some (.arr ((pySort (dirKeys ME0 ++ [vr])).map .str)) :=
    lookupA_setA_self mf "versions" _ _ hvrs
  have hXmem : vr ∈ pySort (dirKeys ME0 ++ [vr]) :=
    (pySort_perm _).mem_iff.2 (List.mem_append.2 (Or.inr (List.mem_singleton.2 rfl)))
  have hrem : RegistryClient.removeFirstStr
      ((pySort (dirKeys ME0 ++ [vr])).map .str) vr =
      some (((pySort (dirKeys ME0 ++ [vr])).erase vr).map .str) := by
    rw [removeFirstStr_map_str, if_pos hXmem]
  obtain ⟨fs'', hdel, hfin'⟩ :=
    delete_build hnm hvr hvm hfin hvrME' hmfME' hvsnew hrem
  have hkeys : (setA (setA (ME0 ++ [(vr, Entry.dir [])]) vr (.dir vd))
      "metadata.json" (.file (.jval (.obj (setA mf "versions"
        (.arr ((pySort (dirKeys ME0 ++ [vr])).map .str))))))).map Prod.fst =
      ME0.map Prod.fst ++ [vr] := by
    rw [setA_map_fst, setA_map_fst, List.map_append]
    rfl
  have hndME' : ((setA (setA (ME0 ++ [(vr, Entry.dir [])]) vr (.dir vd))
      "metadata.json" (.file (.jval (.obj (setA mf "versions"
        (.arr ((pySort (dirKeys ME0 ++ [vr])).map .str))))))).map Prod.fst).Nodup := by
    rw [hkeys, List.nodup_append]
    refine ⟨hnd0, List.nodup_singleton vr, ?_⟩
    intro a ha hb
    rw [List.mem_singleton] at hb
    subst hb
    exact (lookupA_eq_none_iff ME0 a).1 hfresh ha
  have hgone : lookupE (["modules", nm] ++ [vr]) fs'' = Option.none := by
    rw [lookupE_append, hfin']
    show lookupE [vr] (Entry.dir _) = Option.none
    rw [lookupE_single]
    rw [lookupA_setA_other _ "metadata.json" vr _ hvm]
    exact lookupA_eraseA_self_of_nodup _ vr hndME'
  refine ⟨fs'', hdel, hgone, ?_, ?_⟩
  · refine ⟨_, setA (setA mf "versions"
      (.arr ((pySort (dirKeys ME0 ++ [vr])).map .str))) "versions"
      (.arr (((pySort (dirKeys ME0 ++ [vr])).erase vr).map .str)),
      ((pySort (dirKeys ME0 ++ [vr])).erase vr).map .str, hfin', ?_, ?_, ?_⟩
    · have hpre := hmfME'
      rw [← lookupA_eraseA_other (setA (setA (ME0 ++ [(vr, Entry.dir [])]) vr (.dir vd))
          "metadata.json" (.file (.jval (.obj (setA mf "versions"
            (.arr ((pySort (dirKeys ME0 ++ [vr])).map .str))))))) vr "metadata.json"
          (fun hh => hvm hh.symm)] at hpre
      exact lookupA_setA_self _ "metadata.json" _ _ hpre
    · exact lookupA_setA_self _ "versions" _ _ hvsnew
    · have hXnd : (pySort (dirKeys ME0 ++ [vr])).Nodup := by
        refine (pySort_perm _).nodup_iff.2 ?_
        rw [List.nodup_append]
        refine ⟨(dirKeys_sublist ME0).nodup hnd0, List.nodup_singleton vr, ?_⟩
        intro a ha hb
        rw [List.mem_singleton] at hb
        subst hb
        exact (lookupA_eq_none_iff ME0 a).1 hfresh
          ((dirKeys_sublist ME0).mem ha)
      intro hmem
      obtain ⟨a, ha, haeq⟩ := List.mem_map.1 hmem
      have haa : a = vr := by injection haeq
      subst haa
      exact ((List.Nodup.mem_erase_iff hXnd).1 ha).1 rfl
  · have hpt : pyTruthy (some vr) = true := by
      unfold pyTruthy
      simp [hvr]
    unfold RegistryClient.contains
    simp only [hpt, Option.getD_some, pj_ne _ _ hnm, pj_ne _ _ hvr, if_true]
    unfold isDirE
    have hgone2 : lookupE (pj [] "modules" ++ [nm] ++ [vr]) fs'' = Option.none :=
      hgone
    rw [hgone2]

/-- Concrete check of C7: deleting the just-added `demo` version `1.0`
succeeds, removes the version directory and the metadata entry, and a
subsequent `contains` returns false. -/
theorem claim_C7_delete_reverses_add_witness :
    demoModule.name = some "demo" ∧ demoModule.version = some "1.0" ∧
    RegistryClient.add demoRegistry1 demoExt demoModule = .ok demoRegistry2 ∧
    ∃ fs'', RegistryClient.delete demoRegistry2 "demo" "1.0" = .ok fs'' ∧
      lookupE ["modules", "demo", "1.0"] fs'' = Option.none ∧
      (∃ ME mf vs, lookupE ["modules", "demo"] fs'' = some (.dir ME) ∧
        lookupA ME "metadata.json" = some (.file (.jval (.obj mf))) ∧
        lookupA mf "versions" = some (.arr vs) ∧ JVal.str "1.0" ∉ vs) ∧
      RegistryClient.contains fs'' "demo" (some "1.0") = false := by
  refine ⟨rfl, rfl, rfl, ?_⟩
  exact claim_C7_delete_reverses_add demoRegistry1 demoRegistry2 demoExt demoModule
    "demo" "1.0" rfl rfl
    (@RegInv_init emptyRegistry demoRegistry1 "demo" (.arr []) "https://example.com"
      RegInv_empty rfl) rfl

/-! ## Claim C2 -/

/-- A sequence of `init_module` calls, as client operations. -/
def initOps (ts : List (String × JVal × String)) : List RegOp :=
  ts.map fun t => .initOp t.1 t.2.1 t.2.2

/-- Invariant of a registry built by initializing the modules in `names`
(in order): the `modules` directory exists, every initialized module has
an entry, and `module_list` holds exactly the initialized names, one line
each, sorted. -/
def InitInv (fs : Entry) (names : List String) : Prop :=
  (∃ M, lookupE ["modules"] fs = some (.dir M)) ∧
  (∀ n, n ∈ names → ∃ e, lookupE ["modules", n] fs = some e) ∧
  readFileE ["module_list"] fs = some (.lines (pySort (names.map (· ++ "\n"))))

theorem InitInv_empty : InitInv emptyRegistry [] :=
  ⟨⟨[], rfl⟩, fun n hn => absurd hn (List.not_mem_nil n), rfl⟩

theorem InitInv_step {fs fs' : Entry} {nm : String} {mt : JVal} {hp : String}
    {names : List String} (hI : InitInv fs names)
    (h : RegistryClient.init_module fs nm mt hp = .ok fs') :
    nm ∉ names ∧ InitInv fs' (names ++ [nm]) := by
  obtain ⟨hmods, hnames, hml⟩ := hI
  obtain ⟨M, modules, hnm, hM, hfresh, hml0, hml', hnew, hother, hMk, hroot⟩ :=
    init_inv hmods h
  have hmeq : modules = pySort (names.map (· ++ "\n")) := by
    rw [hml0] at hml
    simp only [Option.some.injEq, FileContent.lines.injEq] at hml
    exact hml
  subst hmeq
  have hnotmem : nm ∉ names := by
    intro hmem
    obtain ⟨e, he⟩ := hnames nm hmem
    rw [show (["modules", nm] : List String) = ["modules"] ++ [nm] from rfl,
      lookupE_append, hM] at he
    have he2 : lookupA M nm = some e := by
      rw [← lookupE_single nm M]
      exact he
    rw [hfresh] at he2
    exact Option.noConfusion he2
  refine ⟨hnotmem, ?_, ?_, ?_⟩
  · obtain ⟨M', hM', _⟩ := hMk
    exact ⟨M', hM'⟩
  · intro n hn
    rw [List.mem_append, List.mem_singleton] at hn
    rcases hn with hn | rfl
    · have hne : n ≠ nm := fun hh => hnotmem (hh ▸ hn)
      rw [hother n hne]
      exact hnames n hn
    · exact ⟨_, hnew⟩
  · rw [hml', pySort_sorted_append, List.map_append]
    rfl

/-- Invariant propagation over a whole sequence of `init_module` calls;
also: no name repeats. -/
theorem runInits_inv {ext : ExtFS} :
    ∀ (ts : List (String × JVal × String)) (fs : Entry) (names : List String)
      (fs' : Entry), InitInv fs names → runOps ext fs (initOps ts) = .ok fs' →
      InitInv fs' (names ++ ts.map Prod.fst) ∧
      (∀ n ∈ names, n ∉ ts.map Prod.fst) ∧
      (ts.map Prod.fst).Nodup
  | [], fs, names, fs', hI, h => by
    have h0 : Except.ok (ε := RegErr × Entry) fs = .ok fs' := h
    have h1 : fs = fs' := by injection h0
    subst h1
    refine ⟨?_, fun n _ => by simp, by simp⟩
    rw [List.map_nil, List.append_nil]
    exact hI
  | t :: ts, fs, names, fs', hI, h => by
    have h0 : (match RegistryClient.init_module fs t.1 t.2.1 t.2.2 with
      | .ok st => runOps ext st (initOps ts)
      | .error e => .error e) = .ok fs' := h
    cases hap : RegistryClient.init_module fs t.1 t.2.1 t.2.2 with
    | error e => rw [hap] at h0; exact Except.noConfusion h0
    | ok st =>
      rw [hap] at h0
      have h1 : runOps ext st (initOps ts) = .ok fs' := h0
      obtain ⟨hnot, hI2⟩ := InitInv_step hI hap
      obtain ⟨hI3, hdisj, hnd⟩ := runInits_inv ts st (names ++ [t.1]) fs' hI2 h1
      rw [List.append_assoc] at hI3
      refine ⟨hI3, ?_, ?_⟩
      · intro n hn
        rw [List.map_cons, List.mem_cons]
        push_neg
        exact ⟨fun hh => hnot (hh ▸ hn), hdisj n (List.mem_append.2 (Or.inl hn))⟩
      · rw [List.map_cons, List.nodup_cons]
        exact ⟨hdisj t.1 (List.mem_append.2 (Or.inr (List.mem_singleton.2 rfl))), hnd⟩

/-- C2: after any successful sequence of `init_module` calls on a fresh
registry, the `module_list` file holds exactly one line per initialized
module name (the name followed by a newline), in sorted order, and no
name was initialized twice. -/
theorem claim_C2_module_list_sorted (ext : ExtFS) (ts : List (String × JVal × String))
    (fs' : Entry) (h : runOps ext emptyRegistry (initOps ts) = .ok fs') :
    (ts.map Prod.fst).Nodup ∧
    ∃ L, readFileE ["module_list"] fs' = some (.lines L) ∧
      List.Perm L ((ts.map Prod.fst).map (· ++ "\n")) ∧ L.Sorted (· ≤ ·) := by
  obtain ⟨hI, _, hnd⟩ := runInits_inv ts emptyRegistry [] fs' InitInv_empty h
  exact ⟨hnd, pySort ((ts.map Prod.fst).map (· ++ "\n")), hI.2.2,
    pySort_perm _, pySort_sorted _⟩

/-- A demonstration init sequence (names deliberately out of order). -/
def demoInits : List (String × JVal × String) :=
  [("bbb", JVal.arr [], "https://b.example.com"),
   ("aaa", JVal.arr [], "https://a.example.com")]

/-- The registry after running `demoInits` from the fresh registry. -/
def demoInitRegistry : Entry :=
  orState (runOps demoExt emptyRegistry (initOps demoInits))

/-- Concrete check of C2: initializing `bbb` then `aaa` leaves
`module_list` with the two lines sorted (`aaa` before `bbb`). -/
theorem claim_C2_module_list_sorted_witness :
    runOps demoExt emptyRegistry (initOps demoInits) = .ok demoInitRegistry ∧
    ((demoInits.map Prod.fst).Nodup ∧
      ∃ L, readFileE ["module_list"] demoInitRegistry = some (.lines L) ∧
        List.Perm L ((demoInits.map Prod.fst).map (· ++ "\n")) ∧
        L.Sorted (· ≤ ·)) :=
  ⟨rfl, claim_C2_module_list_sorted demoExt demoInits demoInitRegistry rfl⟩

end Registry
